import Mathlib

/-!
Verification of the versioned, merklized key-value tree (`larry0x/tree`).

This file shallow-embeds the tree data model and its operations from the
repository sources:

- `src/types/nibble_path.rs` — `NibblePath` and its operations;
- `src/types/children.rs` — the sorted child container;
- `src/types/hash.rs` — the hash preimage helpers `hash_child`, `hash_data`,
  `hash_proof_child`;
- `src/types/proof.rs` — `ProofNode` and its hashing;
- `src/verify.rs` — membership / non-membership verification;
- `src/tree.rs` — `apply` / `apply_at`, `get` / `get_at`, `root`, iteration.

Machine integers become `Nat` (bytes carry an explicit `< 256` bound where it
matters); fallible or panicking code returns `Option` (`none` models a panic
or an unrecoverable storage fault) or `Except`; storage becomes explicit
association lists threaded through the functions.

BLAKE3 is modelled abstractly: a digest is represented by its preimage byte
stream, so the model's `List Nat` is the exact byte sequence fed to the hasher and
equality of digests is equality of preimages.

The repository's current `Node<K, V>` record (a `children` container plus
optional `data`) is missing from the provided sources: `src/types/node.rs` is
a stale pre-refactor file (an internal/leaf enum) that is incompatible with
`src/types/mod.rs`, `src/tree.rs` and `src/types/proof.rs`, which all use
`Node<K, V>` with `children`/`data` fields and methods `new`, `is_empty`,
`is_leaf`, `apply_op` and `hash`. Those definitions are therefore modelled
from the spec (sections 3, 4.B and 4.D) and are marked `Modelled from the
spec:` below.
-/

namespace TreeKV

/- Scalar conventions: a nibble (`types/nibble.rs`, a 4-bit value) is a
`Nat`; a byte string (`Vec<u8>` / `&[u8]`) is a `List Nat` with each element
meant below 256; a BLAKE3 digest (`types/hash.rs`) is modelled abstractly as
its preimage byte stream, also a `List Nat` (see the file comment). -/

/-- `NibblePath` (`types/nibble_path.rs`): `num_nibbles` nibbles packed two per
byte, high nibble first; an odd path's trailing low half byte is zero. -/
structure NibblePath where
  num_nibbles : Nat
  bytes : List Nat
deriving DecidableEq, Repr

/-- `NibblePath::empty`. -/
def NibblePath.empty : NibblePath := ⟨0, []⟩

/-- `NibblePath::is_empty`. -/
def NibblePath.isEmpty (p : NibblePath) : Bool := p.num_nibbles == 0

/-- `NibblePath::push`: append one nibble at the tail (`nibble << 4` into a
fresh byte when the length is even, `|=` into the last byte when odd). -/
def NibblePath.push (p : NibblePath) (nibble : Nat) : NibblePath :=
  if p.num_nibbles % 2 == 0 then
    ⟨p.num_nibbles + 1, p.bytes ++ [nibble <<< 4]⟩
  else
    ⟨p.num_nibbles + 1,
     p.bytes.set (p.num_nibbles / 2) ((p.bytes.getD (p.num_nibbles / 2) 0) ||| nibble)⟩

/-- `NibblePath::child`: a copy with one nibble appended. -/
def NibblePath.child (p : NibblePath) (index : Nat) : NibblePath := p.push index

/-- The nibble at position `i`, without the source's bound assertion:
`(bytes[i / 2] >> (if i % 2 == 1 { 0 } else { 4 })) & 0xf`. -/
def NibblePath.nibbleAt (p : NibblePath) (i : Nat) : Nat :=
  ((p.bytes.getD (i / 2) 0) >>> (if i % 2 == 1 then 0 else 4)) &&& 0xf

/-- `NibblePath::get_nibble`: the source asserts `i < num_nibbles`, so the
out-of-range case is `none` (a panic). -/
def NibblePath.getNibble (p : NibblePath) (i : Nat) : Option Nat :=
  if i < p.num_nibbles then some (p.nibbleAt i) else none

/-- `NibblePath::crop`: truncate to `n` nibbles, zeroing the trailing half
byte when `n` is odd. The source asserts `n < num_nibbles`; `none` models the
panic when that bound is violated. -/
def NibblePath.crop (p : NibblePath) (n : Nat) : Option NibblePath :=
  if n < p.num_nibbles then
    some ⟨n, p.bytes.take (n / 2) ++
            (if n % 2 != 0 then [(p.bytes.getD (n / 2) 0) &&& 0xf0] else [])⟩
  else none

/-- `NibblePath::pop`: remove and return the tail nibble. Returns the popped
nibble (if any) together with the remaining path. -/
def NibblePath.popNib (p : NibblePath) : Option Nat × NibblePath :=
  if p.num_nibbles % 2 == 0 then
    match p.bytes.getLast? with
    | none => (none, p)
    | some b =>
        (some (b &&& 0x0f),
         ⟨p.num_nibbles - 1, p.bytes.set (p.bytes.length - 1) (b &&& 0xf0)⟩)
  else
    match p.bytes.getLast? with
    | none => (none, p)
    | some b => (some (b >>> 4), ⟨p.num_nibbles - 1, p.bytes.dropLast⟩)

/-- `impl<T: AsRef<[u8]>> From<T> for NibblePath`: the raw bytes are the
packed form, with `num_nibbles = 2 * len`. -/
def NibblePath.fromKey (key : List Nat) : NibblePath := ⟨key.length * 2, key⟩

/-- Rust's lexicographic comparison of byte slices (`Ord` on `Vec<u8>`):
element-wise, a strict prefix compares less than its extension. -/
def bytesCmp : List Nat → List Nat → Ordering
  | [], [] => .eq
  | [], _ :: _ => .lt
  | _ :: _, [] => .gt
  | a :: xs, b :: ys =>
    match compare a b with
    | .eq => bytesCmp xs ys
    | o => o

/-- `Ord for NibblePath` (`types/nibble_path.rs`): compare `bytes` first, and
break ties with `num_nibbles`. -/
def NibblePath.cmp (p q : NibblePath) : Ordering :=
  match bytesCmp p.bytes q.bytes with
  | .lt => .lt
  | .gt => .gt
  | .eq => compare p.num_nibbles q.num_nibbles

/-- The nibbles of a path, as a list (semantic view of the packed form). -/
def NibblePath.nibs (p : NibblePath) : List Nat :=
  (List.range p.num_nibbles).map p.nibbleAt

/-- Well-formedness maintained by the source constructors: the byte vector has
exactly the packed length, every byte fits in 8 bits, and an odd path's
trailing half byte is zero. -/
def NibblePath.WF (p : NibblePath) : Prop :=
  p.bytes.length = (p.num_nibbles + 1) / 2 ∧
  (∀ b ∈ p.bytes, b < 256) ∧
  (p.num_nibbles % 2 = 1 → (p.bytes.getD (p.num_nibbles / 2) 0) % 16 = 0)

/-- `p` is a nibble-prefix of `q` (`q` extends `p`). -/
def NibblePath.ext (p q : NibblePath) : Prop :=
  p.num_nibbles ≤ q.num_nibbles ∧ q.nibs.take p.num_nibbles = p.nibs

/-- `p` is a strict nibble-prefix of `q`. -/
def NibblePath.strictExt (p q : NibblePath) : Prop :=
  p.ext q ∧ p.num_nibbles < q.num_nibbles

instance : DecidablePred fun pq : NibblePath × NibblePath => pq.1.ext pq.2 := by
  intro pq; unfold NibblePath.ext; infer_instance

/-- `Child` (missing `types/node.rs`, spec section 3): `{index, version,
hash}`; the hash is the child node's digest duplicated on the parent. -/
structure Child where
  index : Nat
  version : Nat
  hash : List Nat
deriving DecidableEq, Repr

/-- `Children::get` (`types/children.rs`): find the child with this index. -/
def childrenGet (children : List Child) (index : Nat) : Option Child :=
  children.find? fun child => child.index == index

/-- `Children::insert` (`types/children.rs`): replace the child with the same
index, or insert before the first child with a greater index, or push. -/
def childrenInsert (children : List Child) (newChild : Child) : List Child :=
  match children with
  | [] => [newChild]
  | child :: rest =>
    if child.index = newChild.index then newChild :: rest
    else if child.index > newChild.index then newChild :: child :: rest
    else child :: childrenInsert rest newChild

/-- `Children::remove` (`types/children.rs`): delete the child with this
index; a no-op when absent. -/
def childrenRemove (children : List Child) (index : Nat) : List Child :=
  match children with
  | [] => []
  | child :: rest =>
    if child.index = index then rest else child :: childrenRemove rest index

/-- `Children::get_only` (`types/children.rs`): the sole child; the source
asserts `count == 1`, so any other cardinality is `none` (a panic). -/
def childrenGetOnly (children : List Child) : Option Child :=
  if children.length = 1 then children.head? else none

/-- `Record<K, V>` (missing `types/node.rs`; spec section 3): raw key and raw
value byte strings. -/
structure Record where
  key : List Nat
  value : List Nat
deriving DecidableEq, Repr

/-- Modelled from the spec: the current `Node<K, V>` record is missing from
the provided sources (see the file comment). Spec section 3: "Node: a record
children: map Nat → Child (cardinality 0..16), data: optional Record". -/
structure Node where
  children : List Child
  data : Option Record
deriving DecidableEq, Repr

/-- Modelled from the spec: `Node::new`, the empty node (no children, no
data), used by `apply_at` when a node is not found. -/
def Node.new : Node := ⟨[], none⟩

/-- Modelled from the spec: "A node is empty iff both fields are absent". -/
def Node.isEmpty (n : Node) : Bool := n.children.isEmpty && n.data.isNone

/-- Modelled from the spec: "A node is a leaf iff it has no children and has
data". -/
def Node.isLeaf (n : Node) : Bool := n.children.isEmpty && n.data.isSome

/-- `hash_child` (`types/hash.rs`): feed the child's index byte and its hash
into the hasher (the model's hasher state is the accumulated preimage). -/
def hashChild (hasher : List Nat) (child : Child) : List Nat :=
  hasher ++ [child.index] ++ child.hash

/-- Big-endian bytes of `len as u16` (`(… as u16).to_be_bytes()`). -/
def u16be (n : Nat) : List Nat := [n % 65536 / 256, n % 256]

/-- `hash_data` (`types/hash.rs`): feed the key length as a big-endian `u16`,
the raw key bytes, then the raw value bytes (no length prefix). -/
def hashData (hasher : List Nat) (data : Record) : List Nat :=
  hasher ++ u16be data.key.length ++ data.key ++ data.value

/-- Modelled from the spec: `Node::hash` is missing from the provided sources;
spec section 4.B: hash every child in order via `hash_child`, then the data
via `hash_data` when present, then finalize. -/
def Node.hash (n : Node) : List Nat :=
  match n.data with
  | some data => hashData (n.children.foldl hashChild []) data
  | none => n.children.foldl hashChild []

/-- `Op<V>` (`types/op.rs`). -/
inductive Op where
  | insert (value : List Nat)
  | delete
deriving DecidableEq, Repr

/-- `OpResponse` (`types/op.rs`). -/
inductive OpResponse where
  | updated (node : Node)
  | deleted
  | unchanged
deriving DecidableEq, Repr

/-- A prepared batch entry `(NibblePath, K, Op<V>)` (`tree.rs`, `apply`). -/
abbrev Entry := NibblePath × (List Nat) × Op

/-- Modelled from the spec: `Node::apply_op` is missing from the provided
sources; spec section 4.D step 3: "apply that op to `current_node.data`
(Insert replaces it with `{key,value}`, Delete clears it)". -/
def Node.applyOp (n : Node) (e : Entry) : Node :=
  match e.2.2 with
  | .insert value => { n with data := some ⟨e.2.1, value⟩ }
  | .delete => { n with data := none }

/-- `ProofChild` (`types/proof.rs`): a `Child` without the version. -/
structure ProofChild where
  index : Nat
  hash : List Nat
deriving DecidableEq, Repr

/-- `ProofNode` (`types/proof.rs`). -/
structure ProofNode where
  children : List ProofChild
  data : Option Record
deriving DecidableEq, Repr

/-- `hash_proof_child` (`types/hash.rs`). -/
def hashProofChild (hasher : List Nat) (child : ProofChild) : List Nat :=
  hasher ++ [child.index] ++ child.hash

/-- `ProofNode::from_node` (`types/proof.rs`): drop the child being descended
into (if any), drop the data when asked, and forget child versions. -/
def ProofNode.fromNode (node : Node) (dropChildAtIndex : Option Nat)
    (dropData : Bool) : ProofNode :=
  let children := match dropChildAtIndex with
    | some index => childrenRemove node.children index
    | none => node.children
  ⟨children.map fun c => ⟨c.index, c.hash⟩, if dropData then none else node.data⟩

/-- `ProofNode::has_child_at_index` (`types/proof.rs`). -/
def ProofNode.hasChildAtIndex (n : ProofNode) (index : Nat) : Bool :=
  n.children.any fun child => child.index == index

/-- The child loop of `ProofNode::hash` (`types/proof.rs`): hash the stored
children in order, interleaving `maybe_child` before the first stored child
with a greater index; the returned flag records whether it was hashed. -/
def proofHashChildren (maybeChild : Option ProofChild) :
    List ProofChild → Bool → List Nat → List Nat × Bool
  | [], flag, hasher => (hasher, flag)
  | child :: rest, flag, hasher =>
    match maybeChild with
    | some c =>
      if !flag ∧ c.index < child.index then
        proofHashChildren maybeChild rest true
          (hashProofChild (hashProofChild hasher c) child)
      else
        proofHashChildren maybeChild rest flag (hashProofChild hasher child)
    | none => proofHashChildren maybeChild rest flag (hashProofChild hasher child)

/-- `ProofNode::hash` (`types/proof.rs`): hash the stored children with the
optional synthetic child merged in, then the data (`maybe_data` wins over the
node's own data). -/
def ProofNode.hash (n : ProofNode) (maybeChild : Option ProofChild)
    (maybeData : Option Record) : List Nat :=
  let (hasher, flag) := proofHashChildren maybeChild n.children false []
  let hasher := match maybeChild with
    | some c => if !flag then hashProofChild hasher c else hasher
    | none => hasher
  match maybeData, n.data with
  | some d, none => hashData hasher d
  | some d, some _ => hashData hasher d
  | none, some d => hashData hasher d
  | none, none => hasher

/-- `VerificationError` (`verify.rs`). -/
inductive VerificationError where
  | proofEmpty
  | proofTooLong
  | keyExists
  | unexpectedChild
  | rootHashMismatch (given computed : List Nat)
deriving DecidableEq, Repr

/-- The loop of `compute_and_check_root_hash` (`verify.rs`): walk `proof[1..]`
bottom-up; at step `i` the known hash becomes a synthetic child at nibble
`nibble_path[proof_len - i - 1]`. `none` models the `get_nibble` panic. -/
def computeRootGo (nibblePath : NibblePath) (proofLen : Nat) :
    List ProofNode → Nat → List Nat → Option (List Nat)
  | [], _, hash => some hash
  | node :: rest, i, hash =>
    match nibblePath.getNibble (proofLen - i - 1) with
    | none => none
    | some index => computeRootGo nibblePath proofLen rest (i + 1)
        (node.hash (some ⟨index, hash⟩) none)

/-- `compute_and_check_root_hash` (`verify.rs`). -/
def computeAndCheckRootHash (rootHash : List Nat) (proof : List ProofNode)
    (nibblePath : NibblePath) (hash : List Nat) :
    Option (Except VerificationError Unit) :=
  match computeRootGo nibblePath proof.length (proof.drop 1) 1 hash with
  | none => none
  | some computed =>
    if computed ≠ rootHash then
      some (.error (.rootHashMismatch rootHash computed))
    else some (.ok ())

/-- `verify_membership` (`verify.rs`). -/
def verifyMembership (rootHash : List Nat) (key value : List Nat)
    (proof : List ProofNode) : Option (Except VerificationError Unit) :=
  let nibblePath := NibblePath.fromKey key
  match proof.head? with
  | none => some (.error .proofEmpty)
  | some node =>
    let hash := node.hash none (some ⟨key, value⟩)
    computeAndCheckRootHash rootHash proof nibblePath hash

/-- `verify_non_membership` (`verify.rs`); the checks run in source order,
with `&&` short-circuiting modelled by the nested conditional. -/
def verifyNonMembership (rootHash : List Nat) (key : List Nat)
    (proof : List ProofNode) : Option (Except VerificationError Unit) :=
  let proofLen := proof.length
  let nibblePath := NibblePath.fromKey key
  match proof.head? with
  | none => some (.error .proofEmpty)
  | some node =>
    if proofLen > nibblePath.num_nibbles + 1 then some (.error .proofTooLong)
    else
      let afterChildCheck : Option (Except VerificationError Unit) :=
        if (match node.data with
            | some data => data.key == key
            | none => false) then
          some (.error .keyExists)
        else
          computeAndCheckRootHash rootHash proof nibblePath (node.hash none none)
      if proofLen ≤ nibblePath.num_nibbles then
        match nibblePath.getNibble (proofLen - 1) with
        | none => none
        | some index =>
          if node.hasChildAtIndex index then some (.error .unexpectedChild)
          else afterChildCheck
      else afterChildCheck

/-- Claim-side preimage of a node's hash, written from the claim's words: for
each child in order, the child's index byte then its hash; then, only if the
node carries data, the key length as a 2-byte big-endian u16, the raw key
bytes and the raw value bytes; no domain-separation prefix anywhere. -/
def specNodePreimage (n : Node) : List Nat :=
  (n.children.map fun c => c.index :: c.hash).flatten ++
  (match n.data with
   | some data =>
     [data.key.length % 65536 / 256, data.key.length % 65536 % 256] ++
       data.key ++ data.value
   | none => [])

/-- Claim-side merge of the synthetic child into the stored children in
ascending index order (stored children win ties). -/
def insertProofChildAsc (c : ProofChild) : List ProofChild → List ProofChild
  | [] => [c]
  | x :: xs =>
    if c.index < x.index then c :: x :: xs else x :: insertProofChildAsc c xs

/-- Claim-side hash of a proof node: the synthetic child merged in ascending
index order, children laid out index byte then hash, then the claimed data if
one is supplied, else the node's own data if present. -/
def specProofNodeHash (n : ProofNode) (maybeChild : Option ProofChild)
    (maybeData : Option Record) : List Nat :=
  let merged := match maybeChild with
    | some c => insertProofChildAsc c n.children
    | none => n.children
  (merged.map fun c => c.index :: c.hash).flatten ++
  (match maybeData, n.data with
   | some d, _ => u16be d.key.length ++ d.key ++ d.value
   | none, some d => u16be d.key.length ++ d.key ++ d.value
   | none, none => [])

/-- Claim-side bottom-up walk shared by both verification claims: fold over
`proof[1..]`, at step `i` merging a synthetic child at nibble
`nibble_path(key)[len(proof) - i - 1]` whose hash is the running hash. -/
def specFoldUp (nibblePath : NibblePath) (proofLen : Nat) :
    List ProofNode → Nat → List Nat → Option (List Nat)
  | [], _, hash => some hash
  | node :: rest, i, hash =>
    match nibblePath.getNibble (proofLen - i - 1) with
    | none => none
    | some index => specFoldUp nibblePath proofLen rest (i + 1)
        (specProofNodeHash node (some ⟨index, hash⟩) none)

/-- Claim-side recomputed root for membership: the running hash starts as the
hash of `proof[0]` with the claimed record inserted as its data and no
synthetic child, then walks up. -/
def specMembershipRoot (key value : List Nat) (proof : List ProofNode) :
    Option (List Nat) :=
  match proof with
  | [] => none
  | node :: _ =>
    specFoldUp (NibblePath.fromKey key) proof.length (proof.drop 1) 1
      (specProofNodeHash node none (some ⟨key, value⟩))

/-- Claim-side non-membership verdict, written as the claim's ordered cascade
of checks. -/
def specNonMembership (rootHash : List Nat) (key : List Nat)
    (proof : List ProofNode) : Option (Except VerificationError Unit) :=
  let nibbleCount := (NibblePath.fromKey key).num_nibbles
  match proof with
  | [] => some (.error .proofEmpty)
  | node :: _ =>
    if proof.length > nibbleCount + 1 then some (.error .proofTooLong)
    else if proof.length ≤ nibbleCount ∧
            node.hasChildAtIndex
              ((NibblePath.fromKey key).nibbleAt (proof.length - 1)) then
      some (.error .unexpectedChild)
    else if (match node.data with
             | some d => d.key == key
             | none => false) then
      some (.error .keyExists)
    else
      match specFoldUp (NibblePath.fromKey key) proof.length (proof.drop 1) 1
          (specProofNodeHash node none none) with
      | none => none
      | some computed =>
        if computed = rootHash then some (.ok ())
        else some (.error (.rootHashMismatch rootHash computed))

/-- `NodeKey` (`types/node_key.rs`): `(version, nibble_path)`. -/
structure NodeKey where
  version : Nat
  nibble_path : NibblePath
deriving DecidableEq, Repr

/-- `NodeKey::root`. -/
def NodeKey.root (version : Nat) : NodeKey := ⟨version, NibblePath.empty⟩

/-- `NodeKey::child`. -/
def NodeKey.child (k : NodeKey) (version : Nat) (index : Nat) : NodeKey :=
  ⟨version, k.nibble_path.child index⟩

/-- `NodeKey::depth`. -/
def NodeKey.depth (k : NodeKey) : Nat := k.nibble_path.num_nibbles

/-- `TreeError` (`tree.rs`); `std` stands for a propagated
`cosmwasm_std::StdError` (for example loading the unset version item). -/
inductive TreeError where
  | std
  | versionNewerThanLatest (latest querying : Nat)
  | rootNodeNotFound (version : Nat)
  | nonRootNodeNotFound (node_key : NodeKey)
deriving DecidableEq, Repr

/-- The tree's persistent state (`Tree`'s three namespaces over the KV
substrate): the version item, the node map and the orphan set, as association
structures. -/
structure Store where
  version : Option Nat
  nodes : List (NodeKey × Node)
  orphans : List (Nat × NodeKey)
deriving DecidableEq, Repr

/-- `Map::may_load` on the node namespace. -/
def Store.loadNode (s : Store) (k : NodeKey) : Option Node :=
  (s.nodes.find? fun e => e.1 == k).map fun e => e.2

/-- Insert-or-replace into an association list (the KV substrate's `save`). -/
def upsertNode : List (NodeKey × Node) → NodeKey → Node → List (NodeKey × Node)
  | [], k, n => [(k, n)]
  | e :: rest, k, n =>
    if e.1 = k then (k, n) :: rest else e :: upsertNode rest k n

/-- `Tree::create_node` / `Map::save` on the node namespace. -/
def Store.saveNode (s : Store) (k : NodeKey) (n : Node) : Store :=
  { s with nodes := upsertNode s.nodes k n }

/-- `Tree::mark_node_as_orphaned` / `Set::insert`: storage writes are
idempotent, so an already-present member leaves the set unchanged. -/
def Store.insertOrphan (s : Store) (version : Nat) (k : NodeKey) : Store :=
  if (version, k) ∈ s.orphans then s
  else { s with orphans := s.orphans ++ [(version, k)] }

/-- `Tree::set_version` / `Item::save`. -/
def Store.setVersion (s : Store) (version : Nat) : Store :=
  { s with version := some version }

/-- The response of `Tree::get` (`types/query.rs`): the key, the value if
found, and the proof when requested (on-wire serialization is skipped: the
proof is carried as the list of proof nodes). -/
structure GetResponse where
  key : List Nat
  value : Option (List Nat)
  proof : Option (List ProofNode)
deriving DecidableEq, Repr

/-- `Tree::get_at` (`tree.rs`): descend from `k` along the remaining nibbles
of the key (`fullPath` with cursor `pos` models the `NibbleIterator`).
`none` is a panic or out-of-fuel (the source recursion always terminates as
the cursor grows). -/
def getAt : Nat → Store → NodeKey → NibblePath → Nat → Bool →
    Option (Except TreeError (Option (List Nat) × List ProofNode))
  | 0, _, _, _, _, _ => none
  | fuel + 1, s, k, fullPath, pos, prove =>
    match s.loadNode k with
    | none =>
      if k.nibble_path.isEmpty then
        match s.version with
        | none => some (.error .std)
        | some latest =>
          if k.version = latest then some (.ok (none, []))
          else if k.version < latest then
            some (.error (.rootNodeNotFound k.version))
          else some (.error (.versionNewerThanLatest latest k.version))
      else some (.error (.nonRootNodeNotFound k))
    | some currentNode =>
      if (match currentNode.data with
          | some data => NibblePath.fromKey data.key == fullPath
          | none => false) then
        match currentNode.data with
        | some data =>
          some (.ok (some data.value,
            if prove then [ProofNode.fromNode currentNode none true] else []))
        | none => none
      else
        match fullPath.getNibble pos with
        | none =>
          some (.ok (none,
            if prove then [ProofNode.fromNode currentNode none false] else []))
        | some index =>
          match childrenGet currentNode.children index with
          | none =>
            some (.ok (none,
              if prove then [ProofNode.fromNode currentNode none false] else []))
          | some child =>
            match getAt fuel s (k.child child.version index) fullPath (pos + 1)
                prove with
            | none => none
            | some (.error e) => some (.error e)
            | some (.ok (value, proof)) =>
              some (.ok (value,
                if prove then
                  proof ++ [ProofNode.fromNode currentNode (some index) false]
                else proof))

/-- `Tree::version_or_default`: the given version, or the stored one
(`Item::load` fails on an unset item). -/
def versionOrDefault (s : Store) (version : Option Nat) : Except TreeError Nat :=
  match version with
  | some v => .ok v
  | none =>
    match s.version with
    | none => .error .std
    | some v => .ok v

/-- `Tree::get` (`tree.rs`): resolve the version, descend from the root with
enough fuel for the whole key, and package the response. -/
def treeGet (fuel : Nat) (s : Store) (key : List Nat) (prove : Bool)
    (version : Option Nat) : Option (Except TreeError GetResponse) :=
  match versionOrDefault s version with
  | .error e => some (.error e)
  | .ok v =>
    let nibblePath := NibblePath.fromKey key
    match getAt fuel s (NodeKey.root v) nibblePath 0 prove with
    | none => none
    | some (.error e) => some (.error e)
    | some (.ok (value, proof)) =>
      some (.ok ⟨key, value, if prove then some proof else none⟩)

/-- `Tree::root_node` (`tree.rs`): load the root node of a version, failing
with `RootNodeNotFound` when absent. -/
def rootNode (s : Store) (version : Nat) : Except TreeError Node :=
  match s.loadNode (NodeKey.root version) with
  | none => .error (.rootNodeNotFound version)
  | some node => .ok node

/-- `Tree::root` (`tree.rs`): the resolved version and the root node's hash. -/
def treeRoot (s : Store) (version : Option Nat) : Except TreeError (Nat × List Nat) :=
  match versionOrDefault s version with
  | .error e => .error e
  | .ok v =>
    match rootNode s v with
    | .error e => .error e
    | .ok node => .ok (v, node.hash)

/-- `NibbleRange` (`types/nibble_range.rs`); the inclusive `end` field is
named `last` (`end` is reserved in Lean). -/
structure NibbleRange where
  nibble : Nat
  start : Nat
  last : Nat
deriving DecidableEq, Repr

/-- `NibbleRangeIterator::get_nibble`: `batch[pos].0.get_nibble(idx)`; `none`
models the index panics. -/
def rangeNibble (batch : List Entry) (idx pos : Nat) : Option Nat :=
  match batch.get? pos with
  | none => none
  | some e => e.1.getNibble idx

/-- The bisection loop of `NibbleRangeIterator::next`
(`types/nibble_range.rs`): find the last position in `[i, j]` whose nibble at
`idx` equals `cur`, assuming nibbles are sorted; fuel-driven (`j - i` shrinks
every iteration, so `j - i + 1` fuel suffices). -/
def bisectGo (batch : List Entry) (idx : Nat) (cur : Nat) :
    Nat → Nat → Nat → Option Nat
  | 0, i, j => if i < j then none else some i
  | fuel + 1, i, j =>
    if i < j then
      let mid := j - (j - i) / 2
      match rangeNibble batch idx mid with
      | none => none
      | some nm =>
        if nm > cur then bisectGo batch idx cur fuel i (mid - 1)
        else bisectGo batch idx cur fuel mid j
    else some i

/-- The iteration of `NibbleRangeIterator` (`types/nibble_range.rs`),
collected into a list: emit `{nibble, start, end}` groups of contiguous batch
entries sharing the nibble at `nibble_idx`. -/
def nibbleRangesGo (batch : List Entry) (idx : Nat) :
    Nat → Nat → Option (List NibbleRange)
  | 0, _ => none
  | fuel + 1, pos =>
    if pos = batch.length then some []
    else
      match rangeNibble batch idx pos with
      | none => none
      | some cur =>
        match bisectGo batch idx cur batch.length pos (batch.length - 1) with
        | none => none
        | some i =>
          match nibbleRangesGo batch idx fuel (i + 1) with
          | none => none
          | some rest => some (⟨cur, pos, i⟩ :: rest)

/-- All ranges of `NibbleRangeIterator::new(batch, idx)`; `batch.length + 1`
steps suffice since the position strictly advances. -/
def nibbleRanges (batch : List Entry) (idx : Nat) : Option (List NibbleRange) :=
  nibbleRangesGo batch idx (batch.length + 1) 0

/-- `&batch[start..=end]`: the inclusive subslice; `none` models the slice
panic when the bounds do not fit. -/
def sliceIncl (batch : List Entry) (start last : Nat) : Option (List Entry) :=
  if start ≤ last + 1 ∧ last + 1 ≤ batch.length then
    some ((batch.drop start).take (last + 1 - start))
  else none

/-- The dangling-data reinsertion (`tree.rs`, `apply_at`):
`batch.binary_search_by_key` then `insert` on its `Err` position, modelled by
the standard library's contract on a sorted vector — insert at the sorted
position unless an entry with the same nibble path is already present (the
batch wins). -/
def insertBatchEntry : List Entry → Entry → List Entry
  | [], e => [e]
  | x :: xs, e =>
    match NibblePath.cmp e.1 x.1 with
    | .lt => e :: x :: xs
    | .eq => x :: xs
    | .gt => x :: insertBatchEntry xs e

/-- `HashMap::get`-style lookup in the `updated_child_nodes` buffer. -/
def assocGet (l : List (Nat × Node)) (k : Nat) : Option Node :=
  (l.find? fun e => e.1 == k).map fun e => e.2

/-- `HashMap::remove`: drop the entry with this key. -/
def assocDrop (l : List (Nat × Node)) (k : Nat) : List (Nat × Node) :=
  l.filter fun e => e.1 != k

/-- `HashMap::insert`: replace or append. -/
def assocPut : List (Nat × Node) → Nat → Node → List (Nat × Node)
  | [], k, n => [(k, n)]
  | e :: rest, k, n =>
    if e.1 = k then (k, n) :: rest else e :: assocPut rest k n

/-- The tail of `apply_at` (`tree.rs` lines 292-328): the collapse rule, the
persist of buffered children, and the changed-compare. `before` is the node
as loaded, `node` the node after all ops, `uc` the `updated_child_nodes`
buffer. `none` models the `get_only` panic and the corrupt-node error of the
collapse load. -/
def finalizeApply (s : Store) (version : Nat) (k : NodeKey)
    (before node : Node) (uc : List (Nat × Node)) :
    Option (OpResponse × Store) :=
  let persist : Option (OpResponse × Store) :=
    let s1 := uc.foldl
      (fun st e => st.saveNode ⟨version, k.nibble_path.child e.1⟩ e.2) s
    if node ≠ before then some (.updated node, s1) else some (.unchanged, s1)
  if node.isEmpty then some (.deleted, s)
  else if node.data = none ∧ node.children.length = 1 then
    match childrenGetOnly node.children with
    | none => none
    | some child =>
      match assocGet uc child.index with
      | some childNode =>
        if childNode.isLeaf then some (.updated childNode, s) else persist
      | none =>
        let childNodeKey := k.child child.version child.index
        match s.loadNode childNodeKey with
        | none => none
        | some childNode =>
          if childNode.isLeaf then
            some (.updated childNode, s.insertOrphan version childNodeKey)
          else persist
  else persist

/-- The dispatch loop of `apply_at` (`tree.rs` lines 255-289), folded over the
nibble ranges; `f` is the recursive call at one fuel step less. The loop
state is the current node, the `updated_child_nodes` buffer and the store. -/
def foldRanges
    (f : Store → NodeKey → Option Node → List Entry → Option (OpResponse × Store))
    (version : Nat) (k : NodeKey) (batch : List Entry) :
    List NibbleRange → Node → List (Nat × Node) → Store →
    Option (Node × List (Nat × Node) × Store)
  | [], node, uc, s => some (node, uc, s)
  | r :: rest, node, uc, s =>
    let child := childrenGet node.children r.nibble
    let childVersion := match child with
      | some c => c.version
      | none => version
    let childNodeKey := k.child childVersion r.nibble
    let cached := assocGet uc r.nibble
    let uc1 := assocDrop uc r.nibble
    match sliceIncl batch r.start r.last with
    | none => none
    | some sub =>
      match f s childNodeKey cached sub with
      | none => none
      | some (resp, s1) =>
        match resp with
        | .updated childNode =>
          let node1 :=
            { node with children :=
                childrenInsert node.children ⟨r.nibble, version, childNode.hash⟩ }
          let s2 := if childNodeKey.version < version then
              s1.insertOrphan version childNodeKey
            else s1
          foldRanges f version k batch rest node1 (assocPut uc1 r.nibble childNode) s2
        | .deleted =>
          let node1 := { node with children := childrenRemove node.children r.nibble }
          let s2 := if childNodeKey.version < version then
              s1.insertOrphan version childNodeKey
            else s1
          foldRanges f version k batch rest node1 uc1 s2
        | .unchanged => foldRanges f version k batch rest node uc1 s1

/-- `Tree::apply_at` (`tree.rs`), fuel-driven: load (or default) the node,
extract dangling data, apply a direct hit, reinsert the dangling data, then
either apply the single remaining op at an empty node or dispatch to the
children, and finish with the collapse / persist / compare tail. `none`
models the panics (`batch[0]` on an empty slice, nibble indexing), storage
faults and fuel exhaustion. -/
def applyAt : Nat → Store → Nat → NodeKey → Option Node → List Entry →
    Option (OpResponse × Store)
  | 0, _, _, _, _, _ => none
  | fuel + 1, s, version, k, cachedNode, batch =>
    let node0 := match cachedNode with
      | some n => n
      | none => (s.loadNode k).getD Node.new
    let before := node0
    let (node1, dangling) := match node0.data with
      | some data =>
        if NibblePath.fromKey data.key ≠ k.nibble_path then
          ({ node0 with data := none }, some data)
        else (node0, none)
      | none => (node0, none)
    match batch.head? with
    | none => none
    | some e0 =>
      let (node2, batch1) :=
        if e0.1 = k.nibble_path then (node1.applyOp e0, batch.drop 1)
        else (node1, batch)
      let batch2 := match dangling with
        | some data =>
          insertBatchEntry batch1
            (NibblePath.fromKey data.key, data.key, .insert data.value)
        | none => batch1
      let afterOps : Option (Node × List (Nat × Node) × Store) :=
        match batch2, node2.isEmpty with
        | [e], true => some (node2.applyOp e, [], s)
        | _, _ =>
          match nibbleRanges batch2 k.depth with
          | none => none
          | some ranges =>
            foldRanges (fun st ck cn sub => applyAt fuel st version ck cn sub)
              version k batch2 ranges node2 [] s
      match afterOps with
      | none => none
      | some (node3, uc, s3) => finalizeApply s3 version k before node3 uc

/-- `Tree::apply` (`tree.rs`): prepare the sorted batch, recurse from the old
root, and commit according to the outcome (`Updated` persists the new root
and advances the version, `Deleted` only advances the version, `Unchanged`
does nothing); the old root is orphaned when `old_version > 0`. -/
def treeApply (fuel : Nat) (s : Store) (batch : List (List Nat × Op)) :
    Option Store :=
  let oldVersion := s.version.getD 0
  let oldRootKey := NodeKey.root oldVersion
  let newVersion := oldVersion + 1
  let batch1 := batch.map fun e => (NibblePath.fromKey e.1, e.1, e.2)
  match applyAt fuel s newVersion oldRootKey none batch1 with
  | none => none
  | some (resp, s1) =>
    match resp with
    | .updated updatedRootNode =>
      let s2 := (s1.setVersion newVersion).saveNode
        ⟨newVersion, NibblePath.empty⟩ updatedRootNode
      some (if oldVersion > 0 then s2.insertOrphan newVersion oldRootKey else s2)
    | .deleted =>
      let s2 := s1.setVersion newVersion
      some (if oldVersion > 0 then s2.insertOrphan newVersion oldRootKey else s2)
    | .unchanged => some s1

/-- `cosmwasm_std::Order`. -/
inductive IterOrder where
  | asc
  | desc
deriving DecidableEq, Repr

/-- `iter_with_order` (`tree.rs`): the children in iteration order. -/
def iterWithOrder (children : List Child) (order : IterOrder) : List Child :=
  match order with
  | .asc => children
  | .desc => children.reverse

/-- `skip` (`tree.rs`): skip children at or before the `start_after` marker
(at or after, when descending). -/
def skipChild (index : Nat) (startAfter : Option Nat) (order : IterOrder) :
    Bool :=
  match startAfter with
  | none => false
  | some after =>
    match order with
    | .asc => decide (index ≤ after)
    | .desc => decide (index ≥ after)

/-- `nibbles_in_range` (`tree.rs`): reject a candidate child path when its
bytes fall below `min` cropped to the same length, or at or above `max`'s
bytes. `none` models the panic of `crop`'s violated assertion. -/
def nibblesInRange (nibblePath : NibblePath) (min max : Option NibblePath) :
    Option Bool :=
  let maxCheck : Bool := match max with
    | some m => decide (bytesCmp nibblePath.bytes m.bytes = .lt)
    | none => true
  match min with
  | some m =>
    match m.crop nibblePath.num_nibbles with
    | none => none
    | some cropped =>
      if bytesCmp nibblePath.bytes cropped.bytes = .lt then some false
      else some maxCheck
  | none => some maxCheck

/-- `key_in_range` (`tree.rs`): only the `min` bound is checked against the
raw key. -/
def keyInRange (key : List Nat) (min : Option NibblePath) : Bool :=
  match min with
  | some m => !decide (bytesCmp key m.bytes = .lt)
  | none => true

/-- The child loop of `iterate_at` (`tree.rs` lines 685-715) followed by the
backtracking pop (lines 720-724): `f` is the recursive `iterate_at` one fuel
step down. The stack's head is its top (`Vec::last`/`push`/`pop`). -/
def iterGo
    (f : NibblePath → List Node → Option Nat →
         Option (Option (List Nat × List Nat) × NibblePath × List Node))
    (s : Store) (order : IterOrder) (min max : Option NibblePath)
    (visNibbles : NibblePath) (visNodes : List Node)
    (startAfter : Option Nat) :
    List Child → Option (Option (List Nat × List Nat) × NibblePath × List Node)
  | [] =>
    let (popped, vis1) := visNibbles.popNib
    match popped, visNodes with
    | some index, _ :: restNodes => f vis1 restNodes (some index)
    | _, _ => some (none, vis1, visNodes.drop 1)
  | child :: rest =>
    if skipChild child.index startAfter order then
      iterGo f s order min max visNibbles visNodes startAfter rest
    else
      let childNibblePath := visNibbles.child child.index
      match nibblesInRange childNibblePath min max with
      | none => none
      | some false => iterGo f s order min max visNibbles visNodes startAfter rest
      | some true =>
        match s.loadNode ⟨child.version, childNibblePath⟩ with
        | none => none
        | some childNode =>
          let vis1 := visNibbles.push child.index
          let stack1 := childNode :: visNodes
          match childNode.data with
          | some data =>
            if keyInRange data.key min then
              some (some (data.key, data.value), vis1, stack1)
            else f vis1 stack1 none
          | none => f vis1 stack1 none

/-- `iterate_at` (`tree.rs`), fuel-driven: scan the current top node's
children in order, descend into the first child in range, yield its data when
in range, and backtrack one level when the children are exhausted. `none`
models panics, storage faults and fuel exhaustion. -/
def iterateAt : Nat → Store → IterOrder → Option NibblePath →
    Option NibblePath → NibblePath → List Node → Option Nat →
    Option (Option (List Nat × List Nat) × NibblePath × List Node)
  | 0, _, _, _, _, _, _, _ => none
  | fuel + 1, s, order, min, max, visNibbles, visNodes, startAfter =>
    match visNodes.head? with
    | none => some (none, visNibbles, visNodes)
    | some currentNode =>
      iterGo (fun vn vs sa => iterateAt fuel s order min max vn vs sa)
        s order min max visNibbles visNodes startAfter
        (iterWithOrder currentNode.children order)

/-- `Tree::iterate` followed by the iterator's first `next()` (`tree.rs`):
resolve the version, load the root node, and run `iterate_at` on the fresh
stack (`visited_nibbles` empty, `visited_nodes = [root]`, no marker). -/
def treeIterateFirst (fuel : Nat) (s : Store) (order : IterOrder)
    (min max : Option (List Nat)) (version : Option Nat) :
    Option (Option (List Nat × List Nat) × NibblePath × List Node) :=
  match versionOrDefault s version with
  | .error _ => none
  | .ok v =>
    match s.loadNode (NodeKey.root v) with
    | none => none
    | some root =>
      iterateAt fuel s order (min.map NibblePath.fromKey)
        (max.map NibblePath.fromKey) NibblePath.empty [root] none

/-- The empty store: no version item, no nodes, no orphans. -/
def emptyStore : Store := ⟨none, [], []⟩

/-- A two-entry sorted batch inserting the keys `[97, 98]` and `[97, 99]`
("ab" and "ac"). -/
def demoBatch : List (List Nat × Op) :=
  [([97, 98], .insert [0]), ([97, 99], .insert [1])]

/-- The leaf holding key `[97, 98]`. -/
def demoLeafAB : Node := ⟨[], some ⟨[97, 98], [0]⟩⟩

/-- The leaf holding key `[97, 99]`. -/
def demoLeafAC : Node := ⟨[], some ⟨[97, 99], [1]⟩⟩

/-- The internal node at nibble path `6 1 6` with the two leaves below. -/
def demoNode3 : Node :=
  ⟨[⟨2, 1, demoLeafAB.hash⟩, ⟨3, 1, demoLeafAC.hash⟩], none⟩

/-- The internal node at nibble path `6 1`. -/
def demoNode2 : Node := ⟨[⟨6, 1, demoNode3.hash⟩], none⟩

/-- The internal node at nibble path `6`. -/
def demoNode1 : Node := ⟨[⟨1, 1, demoNode2.hash⟩], none⟩

/-- The root node of the demo tree. -/
def demoRoot : Node := ⟨[⟨6, 1, demoNode1.hash⟩], none⟩

/-- The store produced by applying `demoBatch` to the empty store: version 1,
with the six nodes of the tree for keys "ab" and "ac". -/
def demoStore : Store :=
  ⟨some 1,
   [(⟨1, ⟨4, [97, 98]⟩⟩, demoLeafAB),
    (⟨1, ⟨4, [97, 99]⟩⟩, demoLeafAC),
    (⟨1, ⟨3, [97, 96]⟩⟩, demoNode3),
    (⟨1, ⟨2, [97]⟩⟩, demoNode2),
    (⟨1, ⟨1, [96]⟩⟩, demoNode1),
    (⟨1, ⟨0, []⟩⟩, demoRoot)],
   []⟩

/-- Recursive expansion of a packed byte list into nibbles: high nibble then
low nibble of each byte, `n` nibbles in total. -/
def nibsOf : Nat → List Nat → List Nat
  | _, [] => []
  | 0, _ :: _ => []
  | 1, b :: _ => [(b >>> 4) &&& 0xf]
  | n + 2, b :: rest => ((b >>> 4) &&& 0xf) :: (b &&& 0xf) :: nibsOf n rest

instance (p q : NibblePath) : Decidable (p.ext q) := by
  unfold NibblePath.ext; infer_instance

instance (p : NibblePath) : Decidable p.WF := by
  unfold NibblePath.WF; infer_instance

/-- Well-formedness of one stored node entry relative to the last committed
version `old`: the key's version and every recorded child version are at most
`old`, the key's path is well formed, and any carried data's key refines the
node's own path (invariant I4, weakened to a prefix to cover dangling data)
with well-formed bytes. -/
def nodeEntryWF (old : Nat) (e : NodeKey × Node) : Prop :=
  e.1.version ≤ old ∧ e.1.nibble_path.WF ∧
  (∀ c ∈ e.2.children, c.version ≤ old) ∧
  (match e.2.data with
   | some r =>
     e.1.nibble_path.ext (NibblePath.fromKey r.key) ∧ (NibblePath.fromKey r.key).WF
   | none => True)

instance (old : Nat) (e : NodeKey × Node) : Decidable (nodeEntryWF old e) := by
  unfold nodeEntryWF
  have : Decidable (match e.2.data with
    | some r =>
      e.1.nibble_path.ext (NibblePath.fromKey r.key) ∧ (NibblePath.fromKey r.key).WF
    | none => True) := by
    cases e.2.data <;> infer_instance
  infer_instance

/-- Well-formedness of the whole store: every node entry satisfies
`nodeEntryWF` at the committed version (spec invariants I2-I5). -/
def StoreWF (s : Store) : Prop :=
  ∀ e ∈ s.nodes, nodeEntryWF (s.version.getD 0) e

instance (s : Store) : Decidable (StoreWF s) := by
  unfold StoreWF; infer_instance

/-- A batch of raw keys is sorted when the keys strictly ascend in the byte
lexicographic order (the `BTreeMap` iteration order). -/
def keysSorted (batch : List (List Nat × Op)) : Prop :=
  batch.Pairwise fun a b => bytesCmp a.1 b.1 = .lt

instance (batch : List (List Nat × Op)) : Decidable (keysSorted batch) := by
  unfold keysSorted; infer_instance

/-- All keys of a batch are byte strings (every byte below 256). -/
def keysWF (batch : List (List Nat × Op)) : Prop :=
  ∀ e ∈ batch, ∀ b ∈ e.1, b < 256

instance (batch : List (List Nat × Op)) : Decidable (keysWF batch) := by
  unfold keysWF; infer_instance

/-- Every stored node's children are strictly sorted by index (the order
`Children::insert` maintains and `create_node` persists). -/
def storeChildrenSorted (s : Store) : Prop :=
  ∀ e ∈ s.nodes, e.2.children.Pairwise fun a b => a.index < b.index

instance (s : Store) : Decidable (storeChildrenSorted s) := by
  unfold storeChildrenSorted; infer_instance

/-- The store-side hypotheses of the `apply_at` preservation argument,
relative to the version being written: every stored node predates it (the
key's version and every recorded child version are strictly below), its
children are strictly sorted by index, and any carried data's key refines
the node's path with well-formed bytes. -/
def storeOld (version : Nat) (s : Store) : Prop :=
  ∀ e ∈ s.nodes,
    e.1.version < version ∧
    (∀ c ∈ e.2.children, c.version < version) ∧
    (e.2.children.Pairwise fun a b => a.index < b.index) ∧
    ∀ r, e.2.data = some r →
      e.1.nibble_path.ext (NibblePath.fromKey r.key) ∧
        (NibblePath.fromKey r.key).WF

/-- The hypotheses of the `apply_at` preservation argument: the store
predates the written version, the current node key's path is well formed,
and the batch entries' paths are well formed, refine the current path, and
strictly ascend. -/
def applyHyps (version : Nat) (s : Store) (k : NodeKey) (batch : List Entry) :
    Prop :=
  storeOld version s ∧ k.nibble_path.WF ∧
  (∀ e ∈ batch, k.nibble_path.ext e.1 ∧ e.1.WF) ∧
  batch.Pairwise fun a b => a.1.cmp b.1 = Ordering.lt

/-- The batch's nibbles at depth `idx` are monotone along positions (what the
sort invariant guarantees for entries refining a common path). -/
def nibMono (batch : List Entry) (idx : Nat) : Prop :=
  ∀ p q np nq, p ≤ q →
    rangeNibble batch idx p = some np →
    rangeNibble batch idx q = some nq → np ≤ nq

/-- Every in-bounds position of the batch yields a nibble at depth `idx`. -/
def nibSome (batch : List Entry) (idx : Nat) : Prop :=
  ∀ p, p < batch.length → ∃ c, rangeNibble batch idx p = some c

/-! ## Byte-level facts, by bounded enumeration -/

set_option maxRecDepth 4096

theorem byteShiftRightFour : ∀ b < 256, b >>> 4 = b / 16 := by decide

theorem byteAndFifteen : ∀ b < 256, b &&& 15 = b % 16 := by decide

theorem nibShiftLeftFour : ∀ n < 16, n <<< 4 = n * 16 := by decide

theorem byteAnd240 : ∀ b < 256, b &&& 240 = b / 16 * 16 := by decide

theorem byteOrNib : ∀ b < 256, ∀ n < 16, b % 16 = 0 → b ||| n = b + n := by decide

theorem nibbleAt_lt_sixteen (p : NibblePath) (i : Nat) : p.nibbleAt i < 16 :=
  Nat.lt_succ_of_le (Nat.and_le_right)

/-! ## List indexing helpers (in the `l[i]?.getD 0` normal form) -/

theorem bget_append_lt (l l' : List Nat) (i : Nat) (h : i < l.length) :
    (l ++ l')[i]?.getD 0 = l[i]?.getD 0 := by
  rw [List.getElem?_append, if_pos h]

theorem bget_append_ge (l l' : List Nat) (i : Nat) (h : l.length ≤ i) :
    (l ++ l')[i]?.getD 0 = l'[i - l.length]?.getD 0 := by
  rw [List.getElem?_append, if_neg (by omega)]

theorem bget_set_self (l : List Nat) (i x : Nat) (h : i < l.length) :
    (l.set i x)[i]?.getD 0 = x := by
  rw [List.getElem?_set_self]
  · rfl
  · exact h

theorem bget_set_ne (l : List Nat) (i j x : Nat) (h : i ≠ j) :
    (l.set i x)[j]?.getD 0 = l[j]?.getD 0 := by
  rw [List.getElem?_set_ne h]

theorem bget_mem (l : List Nat) (i : Nat) (h : i < l.length) :
    l[i]?.getD 0 ∈ l := by
  rw [List.getElem?_eq_getElem h]
  exact List.getElem_mem h

theorem bget_singleton (x : Nat) : [x][0]?.getD 0 = x := rfl

theorem bget_ge_len (l : List Nat) (i : Nat) (h : l.length ≤ i) :
    l[i]?.getD 0 = 0 := by
  rw [List.getElem?_eq_none h]
  rfl

/-! ## Nat path semantics: `nibs`, `push`, well-formedness -/

theorem nibs_length (p : NibblePath) : p.nibs.length = p.num_nibbles := by
  simp [NibblePath.nibs]

theorem nibs_getElem (p : NibblePath) (i : Nat) (h : i < p.num_nibbles) :
    p.nibs.getD i 0 = p.nibbleAt i := by
  have hl : i < p.nibs.length := by simpa [nibs_length] using h
  rw [List.getD_eq_getElem _ _ hl]
  simp [NibblePath.nibs]

theorem empty_WF : NibblePath.empty.WF := by
  refine ⟨rfl, by simp [NibblePath.empty], by simp [NibblePath.empty]⟩

theorem fromKey_WF (key : List Nat) (h : ∀ b ∈ key, b < 256) :
    (NibblePath.fromKey key).WF := by
  refine ⟨by simp [NibblePath.fromKey]; omega,
    by simpa [NibblePath.fromKey] using h, ?_⟩
  intro hodd
  simp [NibblePath.fromKey, Nat.mul_mod_left] at hodd

theorem wf_byte_lt (p : NibblePath) (hp : p.WF) (i : Nat) :
    p.bytes[i]?.getD 0 < 256 := by
  obtain ⟨hlen, hbound, hpar⟩ := hp
  by_cases hin : i < p.bytes.length
  · exact hbound _ (bget_mem _ _ hin)
  · rw [bget_ge_len _ _ (by omega)]; omega

theorem nibbleAt_eq_arith (p : NibblePath) (hp : p.WF) (i : Nat) :
    p.nibbleAt i =
      if i % 2 = 1 then p.bytes[i / 2]?.getD 0 % 16
      else p.bytes[i / 2]?.getD 0 / 16 := by
  have hb := wf_byte_lt p hp (i / 2)
  unfold NibblePath.nibbleAt
  simp only [List.getD_eq_getElem?_getD]
  by_cases hi : i % 2 = 1
  · have hc : (i % 2 == 1) = true := by simp [hi]
    rw [hc, if_pos rfl, if_pos hi, Nat.shiftRight_zero]
    exact byteAndFifteen _ hb
  · have hc : (i % 2 == 1) = false := by simp [hi]
    rw [hc, if_neg (by simp), if_neg hi]
    rw [byteShiftRightFour _ hb]
    rw [byteAndFifteen _ (Nat.div_lt_of_lt_mul (by omega) : _ / 16 < 256)]
    exact Nat.mod_eq_of_lt (Nat.div_lt_of_lt_mul (by omega))

theorem parByte (p : NibblePath) (hp : p.WF)
    (ho : p.num_nibbles % 2 = 1) :
    p.bytes[p.num_nibbles / 2]?.getD 0 % 16 = 0 := by
  have := hp.2.2 ho
  simpa [List.getD_eq_getElem?_getD] using this

theorem push_even (p : NibblePath) (n : Nat) (he : p.num_nibbles % 2 = 0) :
    p.push n = ⟨p.num_nibbles + 1, p.bytes ++ [n <<< 4]⟩ := by
  unfold NibblePath.push
  rw [if_pos (by simp [he])]

theorem push_odd (p : NibblePath) (n : Nat) (ho : p.num_nibbles % 2 = 1) :
    p.push n = ⟨p.num_nibbles + 1,
      p.bytes.set (p.num_nibbles / 2)
        ((p.bytes[p.num_nibbles / 2]?.getD 0) ||| n)⟩ := by
  unfold NibblePath.push
  rw [if_neg (by simp [ho])]
  rw [List.getD_eq_getElem?_getD]

theorem push_WF (p : NibblePath) (n : Nat) (hp : p.WF) (hn : n < 16) :
    (p.push n).WF := by
  have hlen := hp.1
  have hbound := hp.2.1
  rcases Nat.mod_two_eq_zero_or_one p.num_nibbles with he | ho
  · rw [push_even p n he]
    refine ⟨by simp; omega, ?_, ?_⟩
    · intro b hb
      rcases List.mem_append.1 hb with h | h
      · exact hbound _ h
      · simp at h
        subst h
        rw [nibShiftLeftFour _ hn]
        omega
    · intro hodd
      show (p.bytes ++ [n <<< 4]).getD ((p.num_nibbles + 1) / 2) 0 % 16 = 0
      simp only [List.getD_eq_getElem?_getD]
      have hidx : (p.num_nibbles + 1) / 2 = p.bytes.length := by omega
      rw [hidx, bget_append_ge _ _ _ (le_refl _), Nat.sub_self, bget_singleton]
      rw [nibShiftLeftFour _ hn]
      omega
  · have hin : p.num_nibbles / 2 < p.bytes.length := by omega
    have hb0 : p.bytes[p.num_nibbles / 2]?.getD 0 < 256 := wf_byte_lt p hp _
    have hor : (p.bytes[p.num_nibbles / 2]?.getD 0) ||| n =
        p.bytes[p.num_nibbles / 2]?.getD 0 + n :=
      byteOrNib _ hb0 _ hn (parByte p hp ho)
    rw [push_odd p n ho]
    refine ⟨by simp; omega, ?_, ?_⟩
    · intro b hb
      rcases List.mem_or_eq_of_mem_set hb with h | h
      · exact hbound _ h
      · subst h
        rw [hor]
        have := parByte p hp ho
        omega
    · intro hodd
      simp at hodd
      omega

theorem nibbleAt_push_lt (p : NibblePath) (n : Nat) (hp : p.WF) (hn : n < 16)
    (i : Nat) (hi : i < p.num_nibbles) :
    (p.push n).nibbleAt i = p.nibbleAt i := by
  have hlen := hp.1
  have hq := push_WF p n hp hn
  rw [nibbleAt_eq_arith _ hq i, nibbleAt_eq_arith _ hp i]
  rcases Nat.mod_two_eq_zero_or_one p.num_nibbles with he | ho
  · rw [push_even p n he]
    show (if i % 2 = 1 then (p.bytes ++ [n <<< 4])[i / 2]?.getD 0 % 16
      else (p.bytes ++ [n <<< 4])[i / 2]?.getD 0 / 16) = _
    rw [bget_append_lt _ _ _ (by omega)]
  · rw [push_odd p n ho]
    show (if i % 2 = 1 then (p.bytes.set _ _)[i / 2]?.getD 0 % 16
      else (p.bytes.set _ _)[i / 2]?.getD 0 / 16) = _
    by_cases hsame : i / 2 = p.num_nibbles / 2
    · have hieven : i % 2 = 0 := by omega
      have hb0 : p.bytes[p.num_nibbles / 2]?.getD 0 < 256 := wf_byte_lt p hp _
      have hor : (p.bytes[p.num_nibbles / 2]?.getD 0) ||| n =
          p.bytes[p.num_nibbles / 2]?.getD 0 + n :=
        byteOrNib _ hb0 _ hn (parByte p hp ho)
      have hpar := parByte p hp ho
      rw [hsame, bget_set_self _ _ _ (by omega), hor]
      rw [if_neg (by omega), if_neg (by omega)]
      omega
    · rw [bget_set_ne _ _ _ _ (fun h => hsame h.symm)]

theorem nibbleAt_push_self (p : NibblePath) (n : Nat) (hp : p.WF) (hn : n < 16) :
    (p.push n).nibbleAt p.num_nibbles = n := by
  have hlen := hp.1
  have hq := push_WF p n hp hn
  rw [nibbleAt_eq_arith _ hq p.num_nibbles]
  rcases Nat.mod_two_eq_zero_or_one p.num_nibbles with he | ho
  · rw [push_even p n he]
    show (if p.num_nibbles % 2 = 1 then
        (p.bytes ++ [n <<< 4])[p.num_nibbles / 2]?.getD 0 % 16
      else (p.bytes ++ [n <<< 4])[p.num_nibbles / 2]?.getD 0 / 16) = n
    have hidx : p.num_nibbles / 2 = p.bytes.length := by omega
    rw [hidx, bget_append_ge _ _ _ (le_refl _), Nat.sub_self, bget_singleton]
    rw [if_neg (by omega), nibShiftLeftFour _ hn]
    omega
  · have hb0 : p.bytes[p.num_nibbles / 2]?.getD 0 < 256 := wf_byte_lt p hp _
    have hor : (p.bytes[p.num_nibbles / 2]?.getD 0) ||| n =
        p.bytes[p.num_nibbles / 2]?.getD 0 + n :=
      byteOrNib _ hb0 _ hn (parByte p hp ho)
    have hpar := parByte p hp ho
    rw [push_odd p n ho]
    show (if p.num_nibbles % 2 = 1 then
        (p.bytes.set _ _)[p.num_nibbles / 2]?.getD 0 % 16
      else (p.bytes.set _ _)[p.num_nibbles / 2]?.getD 0 / 16) = n
    rw [bget_set_self _ _ _ (by omega), hor, if_pos ho]
    omega

theorem push_num (p : NibblePath) (n : Nat) :
    (p.push n).num_nibbles = p.num_nibbles + 1 := by
  rcases Nat.mod_two_eq_zero_or_one p.num_nibbles with he | ho
  · rw [push_even p n he]
  · rw [push_odd p n ho]

theorem nibs_push (p : NibblePath) (n : Nat) (hp : p.WF) (hn : n < 16) :
    (p.push n).nibs = p.nibs ++ [n] := by
  apply List.ext_getElem
  · simp [nibs_length, push_num]
  · intro i h1 h2
    rw [nibs_length, push_num] at h1
    simp only [NibblePath.nibs, List.getElem_map, List.getElem_range]
    by_cases hi : i < p.num_nibbles
    · rw [nibbleAt_push_lt p n hp hn i hi]
      rw [List.getElem_append_left (by simp [nibs_length]; omega)]
      simp [NibblePath.nibs]
    · have hieq : i = p.num_nibbles := by omega
      subst hieq
      rw [nibbleAt_push_self p n hp hn]
      rw [List.getElem_append_right (by simp [nibs_length])]
      simp [nibs_length]

theorem byte_reconstruct (p : NibblePath) (hp : p.WF) (j : Nat)
    (hj : j < p.bytes.length) :
    p.bytes[j]?.getD 0 =
      16 * p.nibbleAt (2 * j) +
        (if 2 * j + 1 < p.num_nibbles then p.nibbleAt (2 * j + 1) else 0) := by
  have hlen := hp.1
  have h1 := nibbleAt_eq_arith p hp (2 * j)
  have h2 := nibbleAt_eq_arith p hp (2 * j + 1)
  have e1 : 2 * j / 2 = j := by omega
  have e2 : (2 * j + 1) / 2 = j := by omega
  have o1 : ¬ (2 * j) % 2 = 1 := by omega
  have o2 : (2 * j + 1) % 2 = 1 := by omega
  rw [h1, h2, e1, e2, if_neg o1, if_pos o2]
  by_cases hlt : 2 * j + 1 < p.num_nibbles
  · rw [if_pos hlt]
    omega
  · rw [if_neg hlt]
    have hjodd : p.num_nibbles % 2 = 1 ∧ j = p.num_nibbles / 2 := by
      constructor <;> omega
    have hz := parByte p hp hjodd.1
    rw [hjodd.2] at *
    omega

theorem eq_of_nibs (p q : NibblePath) (hp : p.WF) (hq : q.WF)
    (hnum : p.num_nibbles = q.num_nibbles) (hn : p.nibs = q.nibs) : p = q := by
  have hniba : ∀ i, i < p.num_nibbles → p.nibbleAt i = q.nibbleAt i := by
    intro i hi
    have h1 : p.nibs.getD i 0 = q.nibs.getD i 0 := by rw [hn]
    rw [nibs_getElem p i hi, nibs_getElem q i (by omega)] at h1
    exact h1
  have hlen : p.bytes.length = q.bytes.length := by
    have := hp.1
    have := hq.1
    omega
  cases p with
  | mk np bp =>
    cases q with
    | mk nq bq =>
      simp only at hnum hlen ⊢
      subst hnum
      congr 1
      apply List.ext_getElem hlen
      intro j hj1 hj2
      have hr1 := byte_reconstruct ⟨np, bp⟩ hp j hj1
      have hr2 := byte_reconstruct ⟨np, bq⟩ hq j hj2
      have hg1 : bp[j]?.getD 0 = bp[j] := by
        rw [List.getElem?_eq_getElem hj1]; rfl
      have hg2 : bq[j]?.getD 0 = bq[j] := by
        rw [List.getElem?_eq_getElem hj2]; rfl
      rw [hg1] at hr1
      rw [hg2] at hr2
      rw [hr1, hr2]
      have ha : 2 * j < np := by
        have := hp.1
        simp only at this
        rcases Nat.mod_two_eq_zero_or_one np with he | ho <;> omega
      by_cases hb : 2 * j + 1 < np
      · rw [if_pos hb, if_pos hb, hniba (2 * j) ha, hniba (2 * j + 1) hb]
      · rw [if_neg hb, if_neg hb, hniba (2 * j) ha]

/-! ## Path extension and ordering -/

theorem ext_refl (p : NibblePath) : p.ext p :=
  ⟨le_refl _, by rw [← nibs_length]; exact List.take_length _⟩

theorem empty_ext (q : NibblePath) : NibblePath.empty.ext q :=
  ⟨Nat.zero_le _, by simp [NibblePath.empty, NibblePath.nibs]⟩

theorem ext_nibbleAt (base q : NibblePath) (h : base.ext q) (i : Nat)
    (hi : i < base.num_nibbles) : q.nibbleAt i = base.nibbleAt i := by
  obtain ⟨hle, htake⟩ := h
  have hlt : i < q.num_nibbles := lt_of_lt_of_le hi hle
  have h1 : (q.nibs.take base.num_nibbles).getD i 0 = base.nibs.getD i 0 := by
    rw [htake]
  have h2 : (q.nibs.take base.num_nibbles).getD i 0 = q.nibs.getD i 0 := by
    simp only [List.getD_eq_getElem?_getD]
    rw [List.getElem?_take_of_lt hi]
  rw [h2, nibs_getElem q i hlt, nibs_getElem base i hi] at h1
  exact h1

theorem ext_trans (a b c : NibblePath) (h1 : a.ext b) (h2 : b.ext c) :
    a.ext c := by
  refine ⟨le_trans h1.1 h2.1, ?_⟩
  have : c.nibs.take a.num_nibbles =
      (c.nibs.take b.num_nibbles).take a.num_nibbles := by
    rw [List.take_take, Nat.min_def, if_pos h1.1]
  rw [this, h2.2, h1.2]

theorem ext_antisymm (p q : NibblePath) (hp : p.WF) (hq : q.WF)
    (h : p.ext q) (hnum : q.num_nibbles ≤ p.num_nibbles) : p = q := by
  have hle := h.1
  apply eq_of_nibs p q hp hq (by omega)
  rw [← h.2]
  have he : p.num_nibbles = q.num_nibbles := by omega
  rw [he, ← nibs_length q]
  exact List.take_length q.nibs

theorem bytesCmp_eq_iff (a b : List Nat) : bytesCmp a b = .eq ↔ a = b := by
  induction a generalizing b with
  | nil => cases b <;> simp [bytesCmp]
  | cons x xs ih =>
    cases b with
    | nil => simp [bytesCmp]
    | cons y ys =>
      unfold bytesCmp
      rcases h : compare x y with hlt | heq | hgt
      · simp only [h]
        constructor
        · intro hc; exact absurd hc (by simp)
        · intro hc
          have : x = y := by
            injection hc
          rw [Nat.compare_eq_lt] at h
          omega
      · have hxy : x = y := by
          rw [Nat.compare_eq_eq] at h
          exact h
        simp only [h, hxy, ih]
        constructor
        · intro hc; rw [hc]
        · intro hc; injection hc
      · simp only [h]
        constructor
        · intro hc; exact absurd hc (by simp)
        · intro hc
          have : x = y := by injection hc
          rw [Nat.compare_eq_gt] at h
          omega

theorem bytesCmp_swap (a b : List Nat) : bytesCmp b a = (bytesCmp a b).swap := by
  induction a generalizing b with
  | nil => cases b <;> rfl
  | cons x xs ih =>
    cases b with
    | nil => rfl
    | cons y ys =>
      unfold bytesCmp
      rcases h : compare x y with hc | hc | hc
      · rw [Nat.compare_eq_lt] at h
        rw [(by rw [Nat.compare_eq_gt]; omega : compare y x = .gt)]
        rfl
      · rw [Nat.compare_eq_eq] at h
        rw [(by rw [Nat.compare_eq_eq]; omega : compare y x = .eq)]
        exact ih ys
      · rw [Nat.compare_eq_gt] at h
        rw [(by rw [Nat.compare_eq_lt]; omega : compare y x = .lt)]
        rfl

theorem bytesCmp_trans (a b c : List Nat) (h1 : bytesCmp a b = .lt)
    (h2 : bytesCmp b c = .lt) : bytesCmp a c = .lt := by
  induction a generalizing b c with
  | nil =>
    cases b with
    | nil => simp [bytesCmp] at h1
    | cons y ys =>
      cases c with
      | nil => simp [bytesCmp] at h2
      | cons z zs => rfl
  | cons x xs ih =>
    cases b with
    | nil => simp [bytesCmp] at h1
    | cons y ys =>
      cases c with
      | nil => simp [bytesCmp] at h2
      | cons z zs =>
        unfold bytesCmp at h1 h2 ⊢
        rcases hxy : compare x y <;> rw [hxy] at h1 <;>
          rcases hyz : compare y z <;> rw [hyz] at h2 <;>
          simp at h1 h2
        · have hxz : compare x z = Ordering.lt :=
            Nat.compare_eq_lt.2
              (lt_trans (Nat.compare_eq_lt.1 hxy) (Nat.compare_eq_lt.1 hyz))
          rw [hxz]
        · have hxz : compare x z = Ordering.lt := by
            rw [Nat.compare_eq_lt]
            have := Nat.compare_eq_lt.1 hxy
            have := Nat.compare_eq_eq.1 hyz
            omega
          rw [hxz]
        · have hxz : compare x z = Ordering.lt := by
            rw [Nat.compare_eq_lt]
            have := Nat.compare_eq_eq.1 hxy
            have := Nat.compare_eq_lt.1 hyz
            omega
          rw [hxz]
        · have hxz : compare x z = Ordering.eq := by
            rw [Nat.compare_eq_eq]
            have := Nat.compare_eq_eq.1 hxy
            have := Nat.compare_eq_eq.1 hyz
            omega
          rw [hxz]
          exact ih ys zs h1 h2

theorem bytesCmp_append_cancel (l a b : List Nat) :
    bytesCmp (l ++ a) (l ++ b) = bytesCmp a b := by
  induction l with
  | nil => rfl
  | cons x xs ih => simpa [bytesCmp, Nat.compare_eq_eq.2 rfl] using ih

theorem bytesCmp_self_append (l t : List Nat) :
    bytesCmp l (l ++ t) = if t = [] then Ordering.eq else Ordering.lt := by
  induction l with
  | nil => cases t <;> simp [bytesCmp]
  | cons x xs ih => simpa [bytesCmp, Nat.compare_eq_eq.2 rfl] using ih

theorem cmp_eq_iff (p q : NibblePath) : p.cmp q = .eq ↔ p = q := by
  unfold NibblePath.cmp
  rcases h : bytesCmp p.bytes q.bytes with hc | hc | hc
  · constructor
    · intro hx; exact absurd hx (by simp)
    · intro hx
      subst hx
      rw [(bytesCmp_eq_iff _ _).2 rfl] at h
      exact absurd h (by simp)
  · rw [bytesCmp_eq_iff] at h
    constructor
    · intro hx
      rw [Nat.compare_eq_eq] at hx
      cases p; cases q
      simp only at h hx
      simp [h, hx]
    · intro hx
      subst hx
      simp [Nat.compare_eq_eq]
  · constructor
    · intro hx; exact absurd hx (by simp)
    · intro hx
      subst hx
      rw [(bytesCmp_eq_iff _ _).2 rfl] at h
      exact absurd h (by simp)

theorem cmp_swap (p q : NibblePath) : q.cmp p = (p.cmp q).swap := by
  unfold NibblePath.cmp
  rw [bytesCmp_swap p.bytes q.bytes]
  rcases h : bytesCmp p.bytes q.bytes
  · rfl
  · show compare q.num_nibbles p.num_nibbles =
      (compare p.num_nibbles q.num_nibbles).swap
    rcases hn : compare p.num_nibbles q.num_nibbles
    · rw [Nat.compare_eq_lt] at hn
      rw [Nat.compare_eq_gt.2 (by omega)]
      rfl
    · rw [Nat.compare_eq_eq] at hn
      rw [Nat.compare_eq_eq.2 (by omega)]
      rfl
    · rw [Nat.compare_eq_gt] at hn
      rw [Nat.compare_eq_lt.2 (by omega)]
      rfl
  · rfl

theorem cmp_trans (p q r : NibblePath) (h1 : p.cmp q = .lt) (h2 : q.cmp r = .lt) :
    p.cmp r = .lt := by
  unfold NibblePath.cmp at h1 h2 ⊢
  rcases hpq : bytesCmp p.bytes q.bytes <;> rw [hpq] at h1 <;>
    rcases hqr : bytesCmp q.bytes r.bytes <;> rw [hqr] at h2 <;>
    simp at h1 h2
  · rw [bytesCmp_trans _ _ _ hpq hqr]
  · rw [← (bytesCmp_eq_iff _ _).1 hqr, hpq]
  · rw [(bytesCmp_eq_iff _ _).1 hpq, hqr]
  · rw [(bytesCmp_eq_iff _ _).1 hpq, hqr]
    have ha : p.num_nibbles < q.num_nibbles := by
      first
        | exact h1
        | exact Nat.compare_eq_lt.1 h1
    have hb : q.num_nibbles < r.num_nibbles := by
      first
        | exact h2
        | exact Nat.compare_eq_lt.1 h2
    exact Nat.compare_eq_lt.2 (lt_trans ha hb)

theorem take_bytes_eq (base p q : NibblePath) (hp : p.WF) (hq : q.WF)
    (h1 : base.ext p) (h2 : base.ext q) :
    p.bytes.take (base.num_nibbles / 2) = q.bytes.take (base.num_nibbles / 2) := by
  have hlp := hp.1
  have hlq := hq.1
  have hnp := h1.1
  have hnq := h2.1
  have hm1 : base.num_nibbles / 2 ≤ p.bytes.length := by omega
  have hm2 : base.num_nibbles / 2 ≤ q.bytes.length := by omega
  apply List.ext_getElem
  · simp [List.length_take]
    omega
  · intro j hj1 hj2
    simp only [List.length_take] at hj1
    have hjm : j < base.num_nibbles / 2 := by omega
    have hja : 2 * j < base.num_nibbles := by omega
    have hjb : 2 * j + 1 < base.num_nibbles := by omega
    have hr1 := byte_reconstruct p hp j (by omega)
    have hr2 := byte_reconstruct q hq j (by omega)
    rw [List.getElem_take, List.getElem_take]
    have hg1 : p.bytes[j]?.getD 0 = p.bytes[j] := by
      rw [List.getElem?_eq_getElem (by omega : j < p.bytes.length)]; rfl
    have hg2 : q.bytes[j]?.getD 0 = q.bytes[j] := by
      rw [List.getElem?_eq_getElem (by omega : j < q.bytes.length)]; rfl
    rw [hg1] at hr1
    rw [hg2] at hr2
    rw [hr1, hr2]
    rw [if_pos (by omega), if_pos (by omega)]
    rw [ext_nibbleAt base p h1 (2 * j) hja, ext_nibbleAt base q h2 (2 * j) hja,
      ext_nibbleAt base p h1 (2 * j + 1) hjb, ext_nibbleAt base q h2 (2 * j + 1) hjb]

theorem ext_cmp_lt (p q : NibblePath) (hp : p.WF) (hq : q.WF) (h : p.ext q)
    (hne : p ≠ q) : p.cmp q = Ordering.lt := by
  by_cases hnum : q.num_nibbles ≤ p.num_nibbles
  · exact absurd (ext_antisymm p q hp hq h hnum) hne
  push_neg at hnum
  have hlp := hp.1
  have hlq := hq.1
  have htake : p.bytes.take (p.num_nibbles / 2) = q.bytes.take (p.num_nibbles / 2) :=
    take_bytes_eq p p q hp hq (ext_refl p) h
  have hbc : bytesCmp p.bytes q.bytes =
      bytesCmp (p.bytes.drop (p.num_nibbles / 2)) (q.bytes.drop (p.num_nibbles / 2)) := by
    conv_lhs =>
      rw [← List.take_append_drop (p.num_nibbles / 2) p.bytes,
        ← List.take_append_drop (p.num_nibbles / 2) q.bytes]
    rw [htake, bytesCmp_append_cancel]
  unfold NibblePath.cmp
  rcases Nat.mod_two_eq_zero_or_one p.num_nibbles with he | ho
  · have hdp : p.bytes.drop (p.num_nibbles / 2) = [] :=
      List.drop_eq_nil_of_le (by omega)
    rw [hdp] at hbc
    cases hdq : q.bytes.drop (p.num_nibbles / 2) with
    | nil =>
      have hbeq : bytesCmp p.bytes q.bytes = Ordering.eq := by
        rw [hbc, hdq]
        rfl
      rw [hbeq, Nat.compare_eq_lt.2 hnum]
    | cons qb rest =>
      have hblt : bytesCmp p.bytes q.bytes = Ordering.lt := by
        rw [hbc, hdq]
        rfl
      rw [hblt]
  · have hmlt : p.num_nibbles / 2 < p.bytes.length := by omega
    have hmltq : p.num_nibbles / 2 < q.bytes.length := by omega
    have hdp : p.bytes.drop (p.num_nibbles / 2) = [p.bytes[p.num_nibbles / 2]] := by
      rw [List.drop_eq_getElem_cons hmlt]
      congr 1
      exact List.drop_eq_nil_of_le (by omega)
    have hdq : q.bytes.drop (p.num_nibbles / 2) =
        q.bytes[p.num_nibbles / 2] :: q.bytes.drop (p.num_nibbles / 2 + 1) :=
      List.drop_eq_getElem_cons hmltq
    have hg1 : p.bytes[p.num_nibbles / 2]?.getD 0 = p.bytes[p.num_nibbles / 2] := by
      rw [List.getElem?_eq_getElem hmlt]; rfl
    have hg2 : q.bytes[p.num_nibbles / 2]?.getD 0 = q.bytes[p.num_nibbles / 2] := by
      rw [List.getElem?_eq_getElem hmltq]; rfl
    have hr1 := byte_reconstruct p hp (p.num_nibbles / 2) hmlt
    have hr2 := byte_reconstruct q hq (p.num_nibbles / 2) hmltq
    rw [hg1] at hr1
    rw [hg2] at hr2
    rw [if_neg (by omega)] at hr1
    rw [if_pos (by omega)] at hr2
    have hsame : q.nibbleAt (2 * (p.num_nibbles / 2)) =
        p.nibbleAt (2 * (p.num_nibbles / 2)) :=
      ext_nibbleAt p q h _ (by omega)
    have hple : p.bytes[p.num_nibbles / 2] ≤ q.bytes[p.num_nibbles / 2] := by
      rw [hr1, hr2, hsame]
      omega
    rcases hcmp : compare p.bytes[p.num_nibbles / 2] q.bytes[p.num_nibbles / 2]
    · have hin : bytesCmp p.bytes q.bytes = Ordering.lt := by
        rw [hbc, hdp, hdq]
        unfold bytesCmp
        rw [hcmp]
      rw [hin]
    · cases hdq2 : q.bytes.drop (p.num_nibbles / 2 + 1) with
      | nil =>
        have hin : bytesCmp p.bytes q.bytes = Ordering.eq := by
          rw [hbc, hdp, hdq, hdq2]
          unfold bytesCmp
          rw [hcmp]
          rfl
        rw [hin, Nat.compare_eq_lt.2 hnum]
      | cons b rest =>
        have hin : bytesCmp p.bytes q.bytes = Ordering.lt := by
          rw [hbc, hdp, hdq, hdq2]
          unfold bytesCmp
          rw [hcmp]
          rfl
        rw [hin]
    · rw [Nat.compare_eq_gt] at hcmp
      omega


theorem nibble_monotone (base p q : NibblePath) (hp : p.WF) (hq : q.WF)
    (h1 : base.ext p) (h2 : base.ext q)
    (hnp : base.num_nibbles < p.num_nibbles)
    (hnq : base.num_nibbles < q.num_nibbles)
    (hlt : p.cmp q = Ordering.lt) :
    p.nibbleAt base.num_nibbles ≤ q.nibbleAt base.num_nibbles := by
  have hlp := hp.1
  have hlq := hq.1
  have hmp : base.num_nibbles / 2 < p.bytes.length := by omega
  have hmq : base.num_nibbles / 2 < q.bytes.length := by omega
  have hgp : p.bytes[base.num_nibbles / 2]?.getD 0 = p.bytes[base.num_nibbles / 2] := by
    rw [List.getElem?_eq_getElem hmp]; rfl
  have hgq : q.bytes[base.num_nibbles / 2]?.getD 0 = q.bytes[base.num_nibbles / 2] := by
    rw [List.getElem?_eq_getElem hmq]; rfl
  have hdh : (base.num_nibbles) / 2 = base.num_nibbles / 2 := rfl
  unfold NibblePath.cmp at hlt
  rcases hb : bytesCmp p.bytes q.bytes <;> rw [hb] at hlt
  · have htake : p.bytes.take (base.num_nibbles / 2) =
        q.bytes.take (base.num_nibbles / 2) :=
      take_bytes_eq base p q hp hq h1 h2
    have hals : bytesCmp (p.bytes.drop (base.num_nibbles / 2))
        (q.bytes.drop (base.num_nibbles / 2)) = Ordering.lt := by
      have e1 : p.bytes =
          p.bytes.take (base.num_nibbles / 2) ++ p.bytes.drop (base.num_nibbles / 2) :=
        (List.take_append_drop _ p.bytes).symm
      have e2 : q.bytes =
          p.bytes.take (base.num_nibbles / 2) ++ q.bytes.drop (base.num_nibbles / 2) := by
        rw [htake]
        exact (List.take_append_drop _ q.bytes).symm
      rw [e1, e2, bytesCmp_append_cancel] at hb
      exact hb
    rw [List.drop_eq_getElem_cons hmp, List.drop_eq_getElem_cons hmq] at hals
    unfold bytesCmp at hals
    have hple : p.bytes[base.num_nibbles / 2] ≤ q.bytes[base.num_nibbles / 2] := by
      rcases hcmp : compare p.bytes[base.num_nibbles / 2] q.bytes[base.num_nibbles / 2] <;>
        rw [hcmp] at hals
      · exact le_of_lt (Nat.compare_eq_lt.1 hcmp)
      · exact le_of_eq (Nat.compare_eq_eq.1 hcmp)
      · exact absurd hals (by simp)
    rw [nibbleAt_eq_arith p hp _, nibbleAt_eq_arith q hq _, hgp, hgq]
    rcases Nat.mod_two_eq_zero_or_one base.num_nibbles with he | ho
    · rw [if_neg (by omega), if_neg (by omega)]
      omega
    · have hhigh : p.nibbleAt (base.num_nibbles - 1) = q.nibbleAt (base.num_nibbles - 1) := by
        rw [ext_nibbleAt base p h1 _ (by omega), ext_nibbleAt base q h2 _ (by omega)]
      rw [nibbleAt_eq_arith p hp _, nibbleAt_eq_arith q hq _] at hhigh
      rw [if_neg (by omega), if_neg (by omega)] at hhigh
      have hidx : (base.num_nibbles - 1) / 2 = base.num_nibbles / 2 := by omega
      rw [hidx, hgp, hgq] at hhigh
      rw [if_pos ho, if_pos ho]
      omega
  · have : p.bytes = q.bytes := (bytesCmp_eq_iff _ _).1 hb
    unfold NibblePath.nibbleAt
    rw [this]
  · exact absurd hlt (by simp)

theorem first_of_sorted_ext (batch : List Entry) (p : NibblePath) (hwp : p.WF)
    (hs : batch.Pairwise fun a b => a.1.cmp b.1 = Ordering.lt)
    (hext : ∀ e ∈ batch, e.1.WF ∧ p.ext e.1)
    (i : Nat) (hi : i < batch.length) (heq : batch[i].1 = p) : i = 0 := by
  by_contra h0
  cases batch with
  | nil => simp at hi
  | cons e0 rest =>
    have hx : (e0 :: rest)[i] ∈ rest := by
      cases i with
      | zero => exact absurd rfl h0
      | succ j =>
        have hj : j < rest.length := by simpa using hi
        have hx2 : (e0 :: rest)[j + 1] = rest[j] := by simp
        rw [hx2]
        exact List.getElem_mem hj
    have hcmp0 : e0.1.cmp ((e0 :: rest)[i]).1 = Ordering.lt :=
      (List.pairwise_cons.1 hs).1 _ hx
    rw [heq] at hcmp0
    have hpe0 : p.ext e0.1 := (hext e0 (by simp)).2
    have hwfe0 : e0.1.WF := (hext e0 (by simp)).1
    by_cases heq0 : e0.1 = p
    · rw [heq0] at hcmp0
      rw [(cmp_eq_iff p p).2 rfl] at hcmp0
      exact absurd hcmp0 (by simp)
    · have hlt := ext_cmp_lt p e0.1 hwp hwfe0 hpe0 (fun h => heq0 h.symm)
      have := cmp_trans p e0.1 p hlt hcmp0
      rw [(cmp_eq_iff p p).2 rfl] at this
      exact absurd this (by simp)

/-- C9: in any `apply_at` batch slice that is sorted ascending by nibble path
and whose entries' paths all extend the current node's path, an entry whose
path equals the current node's path can only be the first element; a
consequence of the path ordering in which a strict prefix compares less than
any of its extensions. -/
theorem c9_exact_match_is_first (batch : List Entry) (p : NibblePath) (i : Nat)
    (hi : i < batch.length)
    (hs : batch.Pairwise fun a b => a.1.cmp b.1 = Ordering.lt)
    (hwp : p.WF) (hext : ∀ e ∈ batch, e.1.WF ∧ p.ext e.1)
    (heq : batch[i].1 = p) : i = 0 :=
  first_of_sorted_ext batch p hwp hs hext i hi heq

/-- Witness for C9 at a concrete sorted two-entry batch whose first entry's
path equals the current node's path. -/
theorem c9_witness :
    ([(NibblePath.fromKey [97], [97], Op.delete),
      (NibblePath.fromKey [97, 98], [97, 98], Op.delete)] : List Entry)[0].1 =
      NibblePath.fromKey [97] ∧ (0 : Nat) = 0 := by
  refine ⟨rfl, ?_⟩
  exact c9_exact_match_is_first
    [(NibblePath.fromKey [97], [97], Op.delete),
     (NibblePath.fromKey [97, 98], [97, 98], Op.delete)]
    (NibblePath.fromKey [97]) 0 (by decide) (by decide) (by decide)
    (by decide) rfl

/-! ## C1: node hash preimage -/

theorem foldl_hashChild (children : List Child) (acc : List Nat) :
    children.foldl hashChild acc =
      acc ++ (children.map fun c => c.index :: c.hash).flatten := by
  induction children generalizing acc with
  | nil => simp
  | cons c rest ih => simp [hashChild, ih]

/-- C1: each node's hash is the BLAKE3-256 digest (modelled as the preimage
itself) of: for each child in ascending index order, the child's index byte
then its 32-byte hash; then, only if the node carries data, the key length as
a 2-byte big-endian u16, the raw key bytes and the raw value bytes with no
length prefix; there is no domain-separation prefix distinguishing internal
from leaf nodes. -/
theorem c1_node_hash_preimage (n : Node)
    (hsorted : n.children.Pairwise fun a b => a.index < b.index) :
    n.hash = specNodePreimage n := by
  unfold Node.hash specNodePreimage hashData u16be
  have hmod : n.data.elim 0 (fun r => r.key.length) % 65536 % 256 =
      n.data.elim 0 (fun r => r.key.length) % 256 :=
    Nat.mod_mod_of_dvd _ (by norm_num)
  cases hd : n.data with
  | none => simp [foldl_hashChild]
  | some r =>
    simp only [foldl_hashChild, List.nil_append]
    have : r.key.length % 65536 % 256 = r.key.length % 256 :=
      Nat.mod_mod_of_dvd _ (by norm_num)
    rw [← this]
    simp

/-- Witness for C1 at a concrete leaf node with sorted children. -/
theorem c1_witness :
    (Node.mk [⟨2, 1, [9]⟩, ⟨5, 1, [7]⟩] (some ⟨[97, 98], [1]⟩)).hash =
      specNodePreimage (Node.mk [⟨2, 1, [9]⟩, ⟨5, 1, [7]⟩] (some ⟨[97, 98], [1]⟩)) :=
  c1_node_hash_preimage _ (by decide)

/-! ## C2 / C8: proof verification -/

theorem proofHashChildren_none (children : List ProofChild) (flag : Bool)
    (hasher : List Nat) :
    proofHashChildren none children flag hasher =
      (hasher ++ (children.map fun x => x.index :: x.hash).flatten, flag) := by
  induction children generalizing hasher with
  | nil => simp [proofHashChildren]
  | cons x xs ih => simp [proofHashChildren, hashProofChild, ih]

theorem proofHashChildren_done (c : ProofChild) (children : List ProofChild)
    (hasher : List Nat) :
    proofHashChildren (some c) children true hasher =
      (hasher ++ (children.map fun x => x.index :: x.hash).flatten, true) := by
  induction children generalizing hasher with
  | nil => simp [proofHashChildren]
  | cons x xs ih => simp [proofHashChildren, hashProofChild, ih]

theorem proofHashChildren_merge (c : ProofChild) (children : List ProofChild)
    (hasher : List Nat) :
    (if !(proofHashChildren (some c) children false hasher).2 then
       hashProofChild (proofHashChildren (some c) children false hasher).1 c
     else (proofHashChildren (some c) children false hasher).1) =
      hasher ++
        ((insertProofChildAsc c children).map fun x => x.index :: x.hash).flatten := by
  induction children generalizing hasher with
  | nil => simp [proofHashChildren, insertProofChildAsc, hashProofChild]
  | cons x xs ih =>
    by_cases hlt : c.index < x.index
    · have hcond : (!false ∧ c.index < x.index) = True := by simp [hlt]
      simp only [proofHashChildren, hcond, if_pos trivial, proofHashChildren_done,
        insertProofChildAsc, if_pos hlt, hashProofChild]
      simp
    · have hcond : ¬(!false ∧ c.index < x.index) := by simp [hlt]
      simp only [proofHashChildren, if_neg hcond]
      rw [ih]
      simp [insertProofChildAsc, if_neg hlt, hashProofChild]

theorem proofNode_hash_eq (n : ProofNode) (mc : Option ProofChild)
    (md : Option Record) : n.hash mc md = specProofNodeHash n mc md := by
  cases mc with
  | none =>
    unfold ProofNode.hash specProofNodeHash
    rw [proofHashChildren_none]
    cases md with
    | none => cases n.data <;> simp [hashData, u16be]
    | some d => cases n.data <;> simp [hashData, u16be]
  | some c =>
    unfold ProofNode.hash specProofNodeHash
    have hm := proofHashChildren_merge c n.children []
    rcases hph : proofHashChildren (some c) n.children false [] with ⟨hasher, flag⟩
    rw [hph] at hm
    simp only [List.nil_append] at hm
    cases flag with
    | false =>
      simp at hm
      cases md with
      | none => cases n.data <;> simp [hm, hashData, u16be]
      | some d => cases n.data <;> simp [hm, hashData, u16be]
    | true =>
      simp at hm
      cases md with
      | none => cases n.data <;> simp [hm, hashData, u16be]
      | some d => cases n.data <;> simp [hm, hashData, u16be]

theorem computeRootGo_eq_specFoldUp (path : NibblePath) (len : Nat) :
    ∀ (rest : List ProofNode) (i : Nat) (hash : List Nat),
    computeRootGo path len rest i hash = specFoldUp path len rest i hash := by
  intro rest
  induction rest with
  | nil => intro i hash; rfl
  | cons node tail ih =>
    intro i hash
    unfold computeRootGo specFoldUp
    cases path.getNibble (len - i - 1) with
    | none => rfl
    | some index =>
      simp only []
      rw [proofNode_hash_eq, ih]

/-- C2: `verify_membership` succeeds exactly when the claim's bottom-up
recomputation — the first proof node hashed with the claimed record inserted
as its data and no synthetic child, then each following node hashed with a
synthetic child at nibble `nibble_path(key)[len(proof) - i - 1]` merged in
ascending index order and the node's own data appended — yields the given
root hash; an empty proof fails with the empty-proof error. -/
theorem c2_verify_membership (rootHash : List Nat) (key value : List Nat)
    (proof : List ProofNode) :
    (verifyMembership rootHash key value proof = some (Except.ok ()) ↔
      proof ≠ [] ∧ specMembershipRoot key value proof = some rootHash) ∧
    (proof = [] →
      verifyMembership rootHash key value proof =
        some (Except.error VerificationError.proofEmpty)) := by
  cases proof with
  | nil =>
    constructor
    · constructor
      · intro h
        exact absurd h (by simp [verifyMembership])
      · intro h
        exact absurd h.1 (by simp)
    · intro _
      rfl
  | cons node rest =>
    refine ⟨?_, by intro h; exact absurd h (by simp)⟩
    unfold verifyMembership computeAndCheckRootHash specMembershipRoot
    simp only [List.head?_cons, List.drop_succ_cons, List.drop_zero]
    rw [proofNode_hash_eq, computeRootGo_eq_specFoldUp]
    cases hfold : specFoldUp (NibblePath.fromKey key) (node :: rest).length rest 1
        (specProofNodeHash node none (some ⟨key, value⟩)) with
    | none => simp
    | some computed =>
      by_cases hroot : computed = rootHash
      · simp [hroot]
      · simp [hroot]


/-- Witness for C2 at a concrete one-node proof: the root hash is the
preimage of the single node carrying the claimed record. -/
theorem c2_witness :
    verifyMembership [0, 1, 97, 98] [97] [98] [⟨[], none⟩] =
      some (Except.ok ()) := by
  have h := (c2_verify_membership [0, 1, 97, 98] [97] [98] [⟨[], none⟩]).1
  exact h.2 ⟨by simp, by decide⟩

theorem computeAndCheck_eq_spec (rootHash : List Nat) (key : List Nat)
    (node : ProofNode) (rest : List ProofNode) :
    computeAndCheckRootHash rootHash (node :: rest) (NibblePath.fromKey key)
        (node.hash none none) =
      (match specFoldUp (NibblePath.fromKey key) (node :: rest).length rest 1
          (specProofNodeHash node none none) with
       | none => none
       | some computed =>
         if computed = rootHash then some (Except.ok ())
         else some (Except.error
           (VerificationError.rootHashMismatch rootHash computed))) := by
  unfold computeAndCheckRootHash
  simp only [List.drop_succ_cons, List.drop_zero]
  rw [proofNode_hash_eq, computeRootGo_eq_specFoldUp]
  cases specFoldUp (NibblePath.fromKey key) (node :: rest).length rest 1
      (specProofNodeHash node none none) with
  | none => rfl
  | some computed =>
    by_cases hroot : computed = rootHash
    · simp [hroot]
    · simp [hroot]

/-- C8: `verify_non_membership` is exactly the claim's ordered cascade:
empty-proof, proof-too-long, unexpected-child at nibble `key[proof_len - 1]`,
key-exists, then root-hash-mismatch against the bottom-up recomputation that
starts from the first node's own hash with no synthetic leaf, and success
otherwise. -/
theorem c8_verify_non_membership (rootHash : List Nat) (key : List Nat)
    (proof : List ProofNode) :
    verifyNonMembership rootHash key proof =
      specNonMembership rootHash key proof := by
  cases proof with
  | nil => rfl
  | cons node rest =>
    unfold verifyNonMembership specNonMembership
    simp only [List.head?_cons]
    by_cases hlong :
        (node :: rest).length > (NibblePath.fromKey key).num_nibbles + 1
    · rw [if_pos hlong, if_pos hlong]
    · rw [if_neg hlong, if_neg hlong]
      by_cases hle :
          (node :: rest).length ≤ (NibblePath.fromKey key).num_nibbles
      · have hlt : (node :: rest).length - 1 <
            (NibblePath.fromKey key).num_nibbles := by
          simp at hle ⊢
          omega
        have hnib : (NibblePath.fromKey key).getNibble ((node :: rest).length - 1) =
            some ((NibblePath.fromKey key).nibbleAt ((node :: rest).length - 1)) := by
          unfold NibblePath.getNibble
          rw [if_pos hlt]
        rw [if_pos hle]
        simp only [hnib]
        by_cases hchild : node.hasChildAtIndex
            ((NibblePath.fromKey key).nibbleAt ((node :: rest).length - 1))
        · rw [if_pos hchild, if_pos (And.intro hle hchild)]
        · rw [if_neg hchild,
            if_neg (show ¬((node :: rest).length ≤
                (NibblePath.fromKey key).num_nibbles ∧
                node.hasChildAtIndex ((NibblePath.fromKey key).nibbleAt
                  ((node :: rest).length - 1)) = true) from
              fun hand => hchild hand.2),
            computeAndCheck_eq_spec]
          simp only [List.drop_succ_cons, List.drop_zero]
      · rw [if_neg hle]
        rw [if_neg (show ¬((node :: rest).length ≤
            (NibblePath.fromKey key).num_nibbles ∧
            node.hasChildAtIndex ((NibblePath.fromKey key).nibbleAt
              ((node :: rest).length - 1)) = true) from
          fun hand => hle hand.1)]
        rw [computeAndCheck_eq_spec]
        simp only [List.drop_succ_cons, List.drop_zero]

/-! ## C6: the root query's error on versions newer than current -/

/-- C6 counterexample: on a store whose committed version is 1 (with its root
present), querying the root at version 2 — strictly newer than current —
returns the root-not-found error, not the version-too-new error the claim
requires. -/
theorem c6_counterexample :
    treeRoot demoStore (some 2) =
      Except.error (TreeError.rootNodeNotFound 2) := by
  rfl

/-- C6 (amended): `root` returns root-not-found for every resolved version
whose root node is absent — including versions strictly greater than the
current one; the root query never performs a version-too-new check. -/
theorem c6_amended (s : Store) (v : Nat)
    (habs : s.loadNode (NodeKey.root v) = none) :
    treeRoot s (some v) = Except.error (TreeError.rootNodeNotFound v) := by
  unfold treeRoot versionOrDefault rootNode
  simp [habs]

/-- Witness for the amended C6 on the empty store at version 5. -/
theorem c6_amended_witness :
    treeRoot emptyStore (some 5) =
      Except.error (TreeError.rootNodeNotFound 5) :=
  c6_amended emptyStore 5 rfl

/-! ## C7: `get` with a missing root or missing non-root node -/

/-- C7: when the root node of the resolved version is absent, `get` returns
value `None` with an empty proof if the queried version equals the current
one, the root-not-found error if it is older, and the version-too-new error
if it is newer; a missing non-root node reached during descent fails with the
corrupt-node error naming the node key. -/
theorem c7_get_missing_root :
    (∀ (fuel : Nat) (s : Store) (key : List Nat) (prove : Bool) (cur : Nat),
       s.version = some cur → s.loadNode (NodeKey.root cur) = none →
       treeGet (fuel + 1) s key prove (some cur) =
         some (Except.ok ⟨key, none, if prove then some [] else none⟩)) ∧
    (∀ (fuel : Nat) (s : Store) (key : List Nat) (prove : Bool) (cur v : Nat),
       s.version = some cur → s.loadNode (NodeKey.root v) = none → v < cur →
       treeGet (fuel + 1) s key prove (some v) =
         some (Except.error (TreeError.rootNodeNotFound v))) ∧
    (∀ (fuel : Nat) (s : Store) (key : List Nat) (prove : Bool) (cur v : Nat),
       s.version = some cur → s.loadNode (NodeKey.root v) = none → cur < v →
       treeGet (fuel + 1) s key prove (some v) =
         some (Except.error (TreeError.versionNewerThanLatest cur v))) ∧
    (∀ (fuel : Nat) (s : Store) (k : NodeKey) (fullPath : NibblePath)
       (pos : Nat) (prove : Bool),
       s.loadNode k = none → k.nibble_path.isEmpty = false →
       getAt (fuel + 1) s k fullPath pos prove =
         some (Except.error (TreeError.nonRootNodeNotFound k))) := by
  refine ⟨?_, ?_, ?_, ?_⟩
  · intro fuel s key prove cur hv habs
    unfold treeGet versionOrDefault getAt
    simp only [NodeKey.root, NibblePath.empty] at habs
    simp [habs, hv, NodeKey.root, NibblePath.empty, NibblePath.isEmpty]
  · intro fuel s key prove cur v hv habs hlt
    unfold treeGet versionOrDefault getAt
    simp only [NodeKey.root, NibblePath.empty] at habs
    have h1 : ¬ v = cur := by omega
    simp [habs, hv, NodeKey.root, NibblePath.empty, NibblePath.isEmpty, h1, hlt]
  · intro fuel s key prove cur v hv habs hlt
    unfold treeGet versionOrDefault getAt
    simp only [NodeKey.root, NibblePath.empty] at habs
    have h1 : ¬ v = cur := by omega
    have h2 : ¬ v < cur := by omega
    simp [habs, hv, NodeKey.root, NibblePath.empty, NibblePath.isEmpty, h1, h2]
  · intro fuel s k fullPath pos prove habs hne
    unfold getAt
    simp [habs, hne]

/-- Witness for C7: all four cases evaluated at concrete stores. -/
theorem c7_witness :
    treeGet 1 (Store.mk (some 1) [] []) [97] true (some 1) =
      some (Except.ok ⟨[97], none, some []⟩) ∧
    treeGet 1 (Store.mk (some 2) [] []) [97] false (some 1) =
      some (Except.error (TreeError.rootNodeNotFound 1)) ∧
    treeGet 1 (Store.mk (some 1) [] []) [97] false (some 2) =
      some (Except.error (TreeError.versionNewerThanLatest 1 2)) ∧
    getAt 1 emptyStore ⟨1, ⟨1, [96]⟩⟩ (NibblePath.fromKey [97]) 0 true =
      some (Except.error (TreeError.nonRootNodeNotFound ⟨1, ⟨1, [96]⟩⟩)) := by
  refine ⟨?_, ?_, ?_, ?_⟩
  · exact c7_get_missing_root.1 0 _ [97] true 1 rfl rfl
  · exact c7_get_missing_root.2.1 0 _ [97] false 2 1 rfl rfl (by omega)
  · exact c7_get_missing_root.2.2.1 0 _ [97] false 1 2 rfl rfl (by omega)
  · exact c7_get_missing_root.2.2.2 0 emptyStore ⟨1, ⟨1, [96]⟩⟩
      (NibblePath.fromKey [97]) 0 true rfl rfl

/-! ## C10: the empty batch panics in `apply` -/

/-- C10: the public `apply` called with an empty batch never returns
successfully: `apply_at` reads `batch[0]` before any emptiness check, so for
every store and any fuel the model yields the panic marker. -/
theorem c10_empty_batch_panics (fuel : Nat) (s : Store) :
    treeApply fuel s [] = none := by
  cases fuel with
  | zero => rfl
  | succ f => rfl

/-! ## C4: the collapse rule at the end of `apply_at` -/

/-- C4: at the end of every `apply_at` call (the `finalizeApply` tail that
`applyAt` invokes on its result): a node with no data and no children reports
Deleted without touching the store; a node with no data and exactly one child
whose node is a leaf reports Updated carrying that child node (moving it one
level up), orphaning the stored child when it was loaded rather than
buffered; and when the single surviving child is not a leaf the current node
itself is kept — the buffered children are persisted and the call reports
Updated with the current node, or Unchanged when it equals the loaded one. -/
theorem c4_collapse_rule :
    (∀ (s : Store) (v : Nat) (k : NodeKey) (before node : Node)
       (uc : List (Nat × Node)), node.isEmpty = true →
       finalizeApply s v k before node uc = some (.deleted, s)) ∧
    (∀ (s : Store) (v : Nat) (k : NodeKey) (before node : Node)
       (uc : List (Nat × Node)) (c : Child) (cn : Node),
       node.data = none → node.children = [c] →
       assocGet uc c.index = some cn → cn.isLeaf = true →
       finalizeApply s v k before node uc = some (.updated cn, s)) ∧
    (∀ (s : Store) (v : Nat) (k : NodeKey) (before node : Node)
       (uc : List (Nat × Node)) (c : Child) (cn : Node),
       node.data = none → node.children = [c] →
       assocGet uc c.index = none →
       s.loadNode (k.child c.version c.index) = some cn → cn.isLeaf = true →
       finalizeApply s v k before node uc =
         some (.updated cn, s.insertOrphan v (k.child c.version c.index))) ∧
    (∀ (s : Store) (v : Nat) (k : NodeKey) (before node : Node)
       (uc : List (Nat × Node)) (c : Child) (cn : Node),
       node.data = none → node.children = [c] →
       (assocGet uc c.index = some cn ∧ cn.isLeaf = false ∨
        assocGet uc c.index = none ∧
          s.loadNode (k.child c.version c.index) = some cn ∧
          cn.isLeaf = false) →
       finalizeApply s v k before node uc =
         some (if node ≠ before then .updated node else .unchanged,
           uc.foldl (fun st e =>
             st.saveNode ⟨v, k.nibble_path.child e.1⟩ e.2) s)) := by
  refine ⟨?_, ?_, ?_, ?_⟩
  · intro s v k before node uc hempty
    unfold finalizeApply
    rw [if_pos hempty]
  · intro s v k before node uc c cn hdata hch hget hleaf
    have hempty : node.isEmpty = false := by
      unfold Node.isEmpty
      rw [hch]
      rfl
    unfold finalizeApply
    rw [hempty]
    simp only [Bool.false_eq_true, if_neg (by simp : ¬ False)]
    rw [if_pos ⟨hdata, by rw [hch]; rfl⟩]
    have honly : childrenGetOnly node.children = some c := by
      rw [hch]
      rfl
    rw [honly]
    simp [hget, hleaf]
  · intro s v k before node uc c cn hdata hch hget hload hleaf
    have hempty : node.isEmpty = false := by
      unfold Node.isEmpty
      rw [hch]
      rfl
    unfold finalizeApply
    rw [hempty]
    simp only [Bool.false_eq_true, if_neg (by simp : ¬ False)]
    rw [if_pos ⟨hdata, by rw [hch]; rfl⟩]
    have honly : childrenGetOnly node.children = some c := by
      rw [hch]
      rfl
    rw [honly]
    simp [hget, hload, hleaf]
  · intro s v k before node uc c cn hdata hch hcase
    have hempty : node.isEmpty = false := by
      unfold Node.isEmpty
      rw [hch]
      rfl
    unfold finalizeApply
    rw [hempty]
    simp only [Bool.false_eq_true, if_neg (by simp : ¬ False)]
    rw [if_pos ⟨hdata, by rw [hch]; rfl⟩]
    have honly : childrenGetOnly node.children = some c := by
      rw [hch]
      rfl
    rw [honly]
    rcases hcase with ⟨hget, hleaf⟩ | ⟨hget, hload, hleaf⟩
    · simp only [hget, hleaf]
      by_cases hne : node = before <;> simp [hne]
    · simp only [hget, hload, hleaf]
      by_cases hne : node = before <;> simp [hne]

/-- Witness for C4: the empty node reports Deleted on the empty store. -/
theorem c4_witness :
    finalizeApply emptyStore 1 (NodeKey.root 0) Node.new Node.new [] =
      some (.deleted, emptyStore) :=
  c4_collapse_rule.1 emptyStore 1 (NodeKey.root 0) Node.new Node.new [] rfl

/-! ## C5: bounded ascending iteration aborts on a reachable store -/

/-- C5: the iteration claim fails. `demoStore` is reachable — it is exactly
what `apply` produces on the empty store for the sorted batch inserting keys
`[97, 98]` and `[97, 99]` — and both live keys satisfy `min = [97] ≤ key`,
yet ascending iteration with that `min` bound aborts instead of yielding
them: at the descended child path `6 1` (two nibbles) `nibbles_in_range`
calls `min.crop(2)` while `min` itself has only two nibbles, violating
`crop`'s `n < num_nibbles` assertion (the model's `none`). So supplying a
`min` bound can make the range check on a descended child's path abort, and
bounded ascending iteration does not terminate normally on all retained
states. -/
theorem c5_iteration_aborts :
    treeApply 10 emptyStore demoBatch = some demoStore ∧
    treeIterateFirst 20 demoStore .asc (some [97]) none none = none ∧
    (NibblePath.fromKey [97]).crop 2 = none ∧
    nibblesInRange ⟨2, [97]⟩ (some (NibblePath.fromKey [97])) none = none := by
  refine ⟨by decide, by decide, by decide, by decide⟩

/-! ## Children, store and batch helper lemmas for the apply argument -/

theorem applyOp_children (n : Node) (e : Entry) :
    (n.applyOp e).children = n.children := by
  unfold Node.applyOp
  cases e.2.2 <;> rfl

theorem children_get_insert_self (l : List Child) (c : Child) :
    childrenGet (childrenInsert l c) c.index = some c := by
  induction l with
  | nil => simp [childrenInsert, childrenGet]
  | cons child rest ih =>
    unfold childrenInsert
    by_cases h1 : child.index = c.index
    · rw [if_pos h1]
      simp [childrenGet]
    · rw [if_neg h1]
      by_cases h2 : child.index > c.index
      · rw [if_pos h2]
        simp [childrenGet]
      · rw [if_neg h2]
        unfold childrenGet
        rw [List.find?_cons_of_neg _ (by simp [h1])]
        exact ih

theorem children_get_insert_ne (l : List Child) (c : Child) (i : Nat)
    (h : i ≠ c.index) :
    childrenGet (childrenInsert l c) i = childrenGet l i := by
  induction l with
  | nil =>
    show childrenGet [c] i = childrenGet [] i
    unfold childrenGet
    rw [List.find?_cons_of_neg _ (by simp; omega)]
  | cons child rest ih =>
    unfold childrenInsert
    by_cases h1 : child.index = c.index
    · rw [if_pos h1]
      unfold childrenGet
      rw [List.find?_cons_of_neg _ (by simp; omega),
        List.find?_cons_of_neg _ (by simp; omega)]
    · rw [if_neg h1]
      by_cases h2 : child.index > c.index
      · rw [if_pos h2]
        unfold childrenGet
        rw [List.find?_cons_of_neg _ (by simp; omega)]
      · rw [if_neg h2]
        unfold childrenGet
        by_cases h3 : child.index = i
        · rw [List.find?_cons_of_pos _ (by simp [h3]),
            List.find?_cons_of_pos _ (by simp [h3])]
        · rw [List.find?_cons_of_neg _ (by simp [h3]),
            List.find?_cons_of_neg _ (by simp [h3])]
          exact ih

theorem children_get_remove_ne (l : List Child) (i j : Nat) (h : i ≠ j) :
    childrenGet (childrenRemove l j) i = childrenGet l i := by
  induction l with
  | nil => rfl
  | cons child rest ih =>
    unfold childrenRemove
    by_cases h1 : child.index = j
    · rw [if_pos h1]
      unfold childrenGet
      rw [List.find?_cons_of_neg _ (by simp; omega)]
    · rw [if_neg h1]
      unfold childrenGet
      by_cases h2 : child.index = i
      · rw [List.find?_cons_of_pos _ (by simp [h2]),
          List.find?_cons_of_pos _ (by simp [h2])]
      · rw [List.find?_cons_of_neg _ (by simp [h2]),
          List.find?_cons_of_neg _ (by simp [h2])]
        exact ih

theorem children_get_remove_self (l : List Child) (i : Nat)
    (hpw : l.Pairwise fun a b => a.index < b.index) :
    childrenGet (childrenRemove l i) i = none := by
  induction l with
  | nil => rfl
  | cons child rest ih =>
    have ⟨hhead, htail⟩ := List.pairwise_cons.1 hpw
    unfold childrenRemove
    by_cases h1 : child.index = i
    · rw [if_pos h1]
      unfold childrenGet
      apply List.find?_eq_none.2
      intro x hx
      have := hhead x hx
      simp
      omega
    · rw [if_neg h1]
      unfold childrenGet
      rw [List.find?_cons_of_neg _ (by simp [h1])]
      exact ih htail

theorem children_remove_absent (l : List Child) (i : Nat)
    (h : childrenGet l i = none) : childrenRemove l i = l := by
  induction l with
  | nil => rfl
  | cons child rest ih =>
    unfold childrenGet at h
    by_cases h1 : child.index = i
    · rw [List.find?_cons_of_pos _ (by simp [h1])] at h
      exact absurd h (by simp)
    · rw [List.find?_cons_of_neg _ (by simp [h1])] at h
      unfold childrenRemove
      rw [if_neg h1, ih h]

theorem children_get_mem (l : List Child) (i : Nat) (c : Child)
    (h : childrenGet l i = some c) : c ∈ l ∧ c.index = i := by
  unfold childrenGet at h
  rcases hf : l.find? (fun child => child.index == i) with _ | c2
  · rw [hf] at h
    exact absurd h (by simp)
  · rw [hf] at h
    simp at h
    subst h
    refine ⟨List.mem_of_find?_eq_some hf, ?_⟩
    have := List.find?_some hf
    simpa using this

theorem loadNode_mem (s : Store) (k : NodeKey) (n : Node)
    (h : s.loadNode k = some n) : (k, n) ∈ s.nodes := by
  unfold Store.loadNode at h
  rcases hf : s.nodes.find? (fun e => e.1 == k) with _ | e
  · rw [hf] at h
    exact absurd h (by simp)
  · rw [hf] at h
    simp at h
    have hmem := List.mem_of_find?_eq_some hf
    have hk := List.find?_some hf
    simp at hk
    have : e = (k, n) := by
      rcases e with ⟨k2, n2⟩
      simp at hk h
      simp [hk, h]
    rw [← this]
    exact hmem

theorem loadNode_fresh (s : Store) (version : Nat)
    (h : ∀ e ∈ s.nodes, e.1.version < version) (path : NibblePath) :
    s.loadNode ⟨version, path⟩ = none := by
  unfold Store.loadNode
  rw [List.find?_eq_none.2]
  · rfl
  · intro e he
    have := h e he
    simp
    intro hk
    rw [hk] at this
    simp at this

theorem strictExt_of_ext_ne (p q : NibblePath) (hp : p.WF) (hq : q.WF)
    (h : p.ext q) (hne : NibblePath.fromKey q.bytes = NibblePath.fromKey q.bytes → p ≠ q) :
    p.strictExt q := by
  refine ⟨h, ?_⟩
  by_contra hnum
  push_neg at hnum
  exact (hne rfl) (ext_antisymm p q hp hq h hnum)

theorem getNibble_some (p : NibblePath) (i n : Nat) :
    p.getNibble i = some n ↔ i < p.num_nibbles ∧ p.nibbleAt i = n := by
  unfold NibblePath.getNibble
  by_cases h : i < p.num_nibbles
  · rw [if_pos h]
    simp [h]
  · rw [if_neg h]
    simp [h]

theorem ext_push_intro (p q : NibblePath) (hp : p.WF) (hq : q.WF) (n : Nat)
    (h : p.ext q) (hlt : p.num_nibbles < q.num_nibbles)
    (hnib : q.nibbleAt p.num_nibbles = n) : (p.push n).ext q := by
  have hn : n < 16 := hnib ▸ nibbleAt_lt_sixteen q p.num_nibbles
  refine ⟨by rw [push_num]; omega, ?_⟩
  rw [nibs_push p n hp hn, push_num]
  have hql : p.num_nibbles < q.nibs.length := by rw [nibs_length]; omega
  rw [List.take_succ]
  congr 1
  · exact h.2
  · rw [List.getElem?_eq_getElem hql]
    have : q.nibs[p.num_nibbles] = q.nibbleAt p.num_nibbles := by
      have := nibs_getElem q p.num_nibbles (by omega)
      rw [List.getD_eq_getElem _ _ hql] at this
      exact this
    simp [this, hnib]

theorem insertBatchEntry_mem (l : List Entry) (d : Entry) :
    ∀ x ∈ insertBatchEntry l d, x ∈ l ∨ x = d := by
  induction l with
  | nil => intro x hx; simp [insertBatchEntry] at hx; simp [hx]
  | cons e rest ih =>
    intro x hx
    unfold insertBatchEntry at hx
    rcases hc : NibblePath.cmp d.1 e.1 with _ | _ | _ <;> rw [hc] at hx
    · rcases List.mem_cons.1 hx with h | h
      · simp [h]
      · exact Or.inl h
    · exact Or.inl hx
    · rcases List.mem_cons.1 hx with h | h
      · exact Or.inl (by simp [h])
      · rcases ih x h with h2 | h2
        · exact Or.inl (by simp [h2])
        · exact Or.inr h2

theorem cmp_gt_iff (p q : NibblePath) :
    p.cmp q = Ordering.gt ↔ q.cmp p = Ordering.lt := by
  rw [cmp_swap p q]
  cases p.cmp q <;> simp [Ordering.swap]

theorem insertBatchEntry_sorted (l : List Entry) (d : Entry)
    (hs : l.Pairwise fun a b => a.1.cmp b.1 = Ordering.lt) :
    (insertBatchEntry l d).Pairwise fun a b => a.1.cmp b.1 = Ordering.lt := by
  induction l with
  | nil => simp [insertBatchEntry]
  | cons e rest ih =>
    have ⟨hhead, htail⟩ := List.pairwise_cons.1 hs
    unfold insertBatchEntry
    rcases hc : NibblePath.cmp d.1 e.1 with _ | _ | _
    · refine List.pairwise_cons.2 ⟨?_, hs⟩
      intro y hy
      rcases List.mem_cons.1 hy with h | h
      · rw [h]; exact hc
      · exact cmp_trans _ _ _ hc (hhead y h)
    · exact hs
    · refine List.pairwise_cons.2 ⟨?_, ih htail⟩
      intro y hy
      rcases insertBatchEntry_mem rest d y hy with h | h
      · exact hhead y h
      · rw [h]
        exact (cmp_gt_iff d.1 e.1).1 hc

theorem sliceIncl_sublist (batch : List Entry) (a b : Nat) (sub : List Entry)
    (h : sliceIncl batch a b = some sub) : sub.Sublist batch := by
  unfold sliceIncl at h
  by_cases hc : a ≤ b + 1 ∧ b + 1 ≤ batch.length
  · rw [if_pos hc] at h
    simp at h
    rw [← h]
    exact ((batch.drop a).take_sublist _).trans (batch.drop_sublist a)
  · rw [if_neg hc] at h
    exact absurd h (by simp)

theorem sliceIncl_mem_pos (batch : List Entry) (a b : Nat) (sub : List Entry)
    (h : sliceIncl batch a b = some sub) :
    ∀ e ∈ sub, ∃ p, a ≤ p ∧ p ≤ b ∧ batch[p]? = some e := by
  unfold sliceIncl at h
  by_cases hc : a ≤ b + 1 ∧ b + 1 ≤ batch.length
  · rw [if_pos hc] at h
    simp at h
    intro e he
    rw [← h] at he
    obtain ⟨i, hi, hie⟩ := List.mem_iff_getElem.1 he
    have hit : i < b + 1 - a := lt_of_lt_of_le hi (List.length_take_le _ _)
    have hid : i < (batch.drop a).length := by
      simp
      omega
    refine ⟨a + i, by omega, by omega, ?_⟩
    rw [List.getElem_take, List.getElem_drop] at hie
    rw [List.getElem?_eq_getElem (by omega)]
    rw [hie]
  · rw [if_neg hc] at h
    exact absurd h (by simp)

/-! ## Nibble-range iterator correctness on sorted refined batches -/

theorem rangeNibble_some (batch : List Entry) (idx p n : Nat) :
    rangeNibble batch idx p = some n ↔
      ∃ e, batch[p]? = some e ∧ e.1.getNibble idx = some n := by
  unfold rangeNibble
  rw [List.get?_eq_getElem?]
  rcases hb : batch[p]? with _ | e
  · simp
  · simp

theorem nibMono_of_sorted (base : NibblePath) (hb : base.WF)
    (batch : List Entry)
    (hext : ∀ e ∈ batch, base.strictExt e.1 ∧ e.1.WF)
    (hs : batch.Pairwise fun a b => a.1.cmp b.1 = Ordering.lt) :
    nibMono batch base.num_nibbles := by
  intro p q np nq hpq h1 h2
  obtain ⟨ep, hep, hgp⟩ := (rangeNibble_some _ _ _ _).1 h1
  obtain ⟨eq_, heq, hgq⟩ := (rangeNibble_some _ _ _ _).1 h2
  have hplen : p < batch.length := (List.getElem?_eq_some_iff.1 hep).1
  have hqlen : q < batch.length := (List.getElem?_eq_some_iff.1 heq).1
  have hepv : batch[p] = ep := (List.getElem?_eq_some_iff.1 hep).2
  have heqv : batch[q] = eq_ := (List.getElem?_eq_some_iff.1 heq).2
  have hmemp : ep ∈ batch := hepv ▸ List.getElem_mem hplen
  have hmemq : eq_ ∈ batch := heqv ▸ List.getElem_mem hqlen
  obtain ⟨hsp, hwp⟩ := hext ep hmemp
  obtain ⟨hsq, hwq⟩ := hext eq_ hmemq
  obtain ⟨hip, hnp⟩ := (getNibble_some _ _ _).1 hgp
  obtain ⟨hiq, hnq⟩ := (getNibble_some _ _ _).1 hgq
  rcases Nat.lt_or_ge p q with hlt | hge
  · have hcmp : ep.1.cmp eq_.1 = Ordering.lt := by
      have := List.pairwise_iff_getElem.1 hs p q hplen hqlen hlt
      rw [hepv, heqv] at this
      exact this
    have := nibble_monotone base ep.1 eq_.1 hwp hwq hsp.1 hsq.1 hsp.2 hsq.2 hcmp
    omega
  · have hpq2 : p = q := by omega
    rw [hpq2] at hep
    rw [hep] at heq
    have : ep = eq_ := by
      have h5 := heq
      simp at h5
      exact h5
    rw [this] at hnp
    omega

theorem nibSome_of_strict (base : NibblePath) (batch : List Entry)
    (hext : ∀ e ∈ batch, base.strictExt e.1 ∧ e.1.WF) :
    nibSome batch base.num_nibbles := by
  intro p hp
  have hep : batch[p]? = some batch[p] := List.getElem?_eq_getElem hp
  have hmem : batch[p] ∈ batch := List.getElem_mem hp
  obtain ⟨hsp, _⟩ := hext _ hmem
  refine ⟨batch[p].1.nibbleAt base.num_nibbles, ?_⟩
  rw [rangeNibble_some]
  refine ⟨batch[p], hep, ?_⟩
  rw [getNibble_some]
  exact ⟨hsp.2, rfl⟩

theorem bisectGo_ok (batch : List Entry) (idx cur : Nat)
    (hmono : nibMono batch idx) :
    ∀ fuel i j m, i ≤ j →
      rangeNibble batch idx i = some cur →
      bisectGo batch idx cur fuel i j = some m →
      i ≤ m ∧ m ≤ j ∧ rangeNibble batch idx m = some cur ∧
        ∀ q c, m < q → q ≤ j → rangeNibble batch idx q = some c → cur < c := by
  intro fuel
  induction fuel with
  | zero =>
    intro i j m hij hcur hb
    unfold bisectGo at hb
    by_cases hlt : i < j
    · rw [if_pos hlt] at hb
      exact absurd hb (by simp)
    · rw [if_neg hlt] at hb
      simp at hb
      subst hb
      have : i = j := by omega
      refine ⟨le_refl _, hij, hcur, ?_⟩
      intro q c hq1 hq2 _
      omega
  | succ fuel ih =>
    intro i j m hij hcur hb
    unfold bisectGo at hb
    by_cases hlt : i < j
    · rw [if_pos hlt] at hb
      have hb2 : (match rangeNibble batch idx (j - (j - i) / 2) with
          | none => none
          | some nm =>
            if nm > cur then bisectGo batch idx cur fuel i (j - (j - i) / 2 - 1)
            else bisectGo batch idx cur fuel (j - (j - i) / 2) j) = some m := hb
      clear hb
      rcases hmid : rangeNibble batch idx (j - (j - i) / 2) with _ | nm <;>
        rw [hmid] at hb2
      · exact absurd hb2 (by simp)
      · have hb3 : (if nm > cur then
              bisectGo batch idx cur fuel i (j - (j - i) / 2 - 1)
            else bisectGo batch idx cur fuel (j - (j - i) / 2) j) = some m := hb2
        have hmid_ge : i + 1 ≤ j - (j - i) / 2 := by omega
        have hmid_le : j - (j - i) / 2 ≤ j := by omega
        by_cases hgt : nm > cur
        · rw [if_pos hgt] at hb3
          obtain ⟨h1, h2, h3, h4⟩ := ih i (j - (j - i) / 2 - 1) m (by omega) hcur hb3
          refine ⟨h1, by omega, h3, ?_⟩
          intro q c hq1 hq2 hqn
          by_cases hqm : q ≤ j - (j - i) / 2 - 1
          · exact h4 q c hq1 hqm hqn
          · have : nm ≤ c := hmono (j - (j - i) / 2) q nm c (by omega) hmid hqn
            omega
        · rw [if_neg hgt] at hb3
          have hmideq : rangeNibble batch idx (j - (j - i) / 2) = some cur := by
            have hle : cur ≤ nm := hmono i (j - (j - i) / 2) cur nm (by omega) hcur hmid
            have : nm = cur := by omega
            rw [hmid, this]
          obtain ⟨h1, h2, h3, h4⟩ := ih (j - (j - i) / 2) j m hmid_le hmideq hb3
          exact ⟨by omega, h2, h3, h4⟩
    · rw [if_neg hlt] at hb
      simp at hb
      subst hb
      refine ⟨le_refl _, hij, hcur, ?_⟩
      intro q c hq1 hq2 _
      omega

theorem rangesGo_ok (batch : List Entry) (idx : Nat)
    (hmono : nibMono batch idx) (hsome : nibSome batch idx) :
    ∀ fuel pos rs, nibbleRangesGo batch idx fuel pos = some rs →
      (∀ r ∈ rs, pos ≤ r.start ∧ r.start ≤ r.last ∧ r.last < batch.length ∧
        ∀ p, r.start ≤ p → p ≤ r.last → rangeNibble batch idx p = some r.nibble) ∧
      rs.Pairwise fun a b => a.nibble < b.nibble := by
  intro fuel
  induction fuel with
  | zero =>
    intro pos rs h
    exact absurd h (by simp [nibbleRangesGo])
  | succ fuel ih =>
    intro pos rs h
    unfold nibbleRangesGo at h
    by_cases hend : pos = batch.length
    · rw [if_pos hend] at h
      simp at h
      subst h
      simp
    · rw [if_neg hend] at h
      rcases hcur : rangeNibble batch idx pos with _ | cur <;> rw [hcur] at h
      · exact absurd h (by simp)
      · have hposlen : pos < batch.length := by
          obtain ⟨e, he, _⟩ := (rangeNibble_some _ _ _ _).1 hcur
          exact (List.getElem?_eq_some_iff.1 he).1
        have h2 : (match bisectGo batch idx cur batch.length pos (batch.length - 1) with
            | none => none
            | some i =>
              match nibbleRangesGo batch idx fuel (i + 1) with
              | none => none
              | some rest =>
                some ({ nibble := cur, start := pos, last := i } :: rest)) = some rs := h
        clear h
        rcases hbis : bisectGo batch idx cur batch.length pos (batch.length - 1)
            with _ | i <;> rw [hbis] at h2
        · exact absurd h2 (by simp)
        · have h3 : (match nibbleRangesGo batch idx fuel (i + 1) with
              | none => none
              | some rest =>
                some ({ nibble := cur, start := pos, last := i } :: rest)) = some rs := h2
          clear h2
          rcases hrest : nibbleRangesGo batch idx fuel (i + 1) with _ | rest <;>
            rw [hrest] at h3
          · exact absurd h3 (by simp)
          · simp at h3
            subst h3
            obtain ⟨hpi, hile, hicur, hmax⟩ :=
              bisectGo_ok batch idx cur hmono batch.length pos (batch.length - 1)
                i (by omega) hcur hbis
            obtain ⟨hrestProp, hrestPW⟩ := ih (i + 1) rest hrest
            have hsand : ∀ p, pos ≤ p → p ≤ i → rangeNibble batch idx p = some cur := by
              intro p hp1 hp2
              obtain ⟨c, hc⟩ := hsome p (by omega)
              have h1 : cur ≤ c := hmono pos p cur c hp1 hcur hc
              have h2 : c ≤ cur := hmono p i c cur hp2 hc hicur
              have : c = cur := by omega
              rw [hc, this]
            have hgtRest : ∀ r ∈ rest, cur < r.nibble := by
              intro r hr
              obtain ⟨hr1, hr2, hr3, hr4⟩ := hrestProp r hr
              have hnib : rangeNibble batch idx r.start = some r.nibble :=
                hr4 r.start (le_refl _) hr2
              exact hmax r.start r.nibble (by omega) (by omega) hnib
            constructor
            · intro r hr
              rcases List.mem_cons.1 hr with hr0 | hrr
              · subst hr0
                exact ⟨le_refl _, hpi, show i < batch.length by omega, hsand⟩
              · obtain ⟨hr1, hr2, hr3, hr4⟩ := hrestProp r hrr
                exact ⟨by omega, hr2, hr3, hr4⟩
            · exact List.pairwise_cons.2 ⟨hgtRest, hrestPW⟩

/-! ## The `apply_at` preservation argument -/

theorem finalize_cases (s : Store) (version : Nat) (k : NodeKey)
    (before node : Node) (uc : List (Nat × Node)) (resp : OpResponse)
    (s1 : Store)
    (h : finalizeApply s version k before node uc = some (resp, s1)) :
    (resp = OpResponse.unchanged → node = before ∧
      s1 = uc.foldl
        (fun st e => st.saveNode ⟨version, k.nibble_path.child e.1⟩ e.2) s) ∧
    (resp = OpResponse.deleted → node.isEmpty = true ∧ s1 = s) := by
  unfold finalizeApply at h
  by_cases hemp : node.isEmpty
  · rw [if_pos hemp] at h
    simp at h
    obtain ⟨h1, h2⟩ := h
    constructor
    · intro hr; rw [← h1] at hr; exact absurd hr (by simp)
    · intro _; exact ⟨hemp, h2.symm⟩
  · rw [if_neg hemp] at h
    have hpersist : ∀ (s2 : Store),
        (if node ≠ before then
            some (OpResponse.updated node,
              uc.foldl (fun st e =>
                st.saveNode ⟨version, k.nibble_path.child e.1⟩ e.2) s2)
          else some (OpResponse.unchanged,
              uc.foldl (fun st e =>
                st.saveNode ⟨version, k.nibble_path.child e.1⟩ e.2) s2)) =
          some (resp, s1) → s2 = s →
        (resp = OpResponse.unchanged → node = before ∧
          s1 = uc.foldl
            (fun st e => st.saveNode ⟨version, k.nibble_path.child e.1⟩ e.2) s) ∧
        (resp = OpResponse.deleted → node.isEmpty = true ∧ s1 = s) := by
      intro s2 hp hs2
      subst hs2
      by_cases hne : node = before
      · rw [if_neg (by simp [hne])] at hp
        simp at hp
        obtain ⟨hp1, hp2⟩ := hp
        constructor
        · intro _; exact ⟨hne, hp2.symm⟩
        · intro hr; rw [← hp1] at hr; exact absurd hr (by simp)
      · rw [if_pos hne] at hp
        simp at hp
        obtain ⟨hp1, hp2⟩ := hp
        constructor
        · intro hr; rw [← hp1] at hr; exact absurd hr (by simp)
        · intro hr; rw [← hp1] at hr; exact absurd hr (by simp)
    by_cases hcol : node.data = none ∧ node.children.length = 1
    · rw [if_pos hcol] at h
      rcases honly : childrenGetOnly node.children with _ | child <;>
        rw [honly] at h
      · exact absurd h (by simp)
      · have hred : (match assocGet uc child.index with
            | some childNode =>
              if childNode.isLeaf then some (OpResponse.updated childNode, s)
              else
                if node ≠ before then
                  some (OpResponse.updated node,
                    uc.foldl (fun st e =>
                      st.saveNode ⟨version, k.nibble_path.child e.1⟩ e.2) s)
                else
                  some (OpResponse.unchanged,
                    uc.foldl (fun st e =>
                      st.saveNode ⟨version, k.nibble_path.child e.1⟩ e.2) s)
            | none =>
              match s.loadNode (k.child child.version child.index) with
              | none => none
              | some childNode =>
                if childNode.isLeaf then
                  some (OpResponse.updated childNode,
                    s.insertOrphan version (k.child child.version child.index))
                else
                  if node ≠ before then
                    some (OpResponse.updated node,
                      uc.foldl (fun st e =>
                        st.saveNode ⟨version, k.nibble_path.child e.1⟩ e.2) s)
                  else
                    some (OpResponse.unchanged,
                      uc.foldl (fun st e =>
                        st.saveNode ⟨version, k.nibble_path.child e.1⟩ e.2) s))
              = some (resp, s1) := h
        clear h
        rcases hcache : assocGet uc child.index with _ | childNode <;>
          simp only [hcache] at hred
        · rcases hload : s.loadNode (k.child child.version child.index)
              with _ | childNode <;> simp only [hload] at hred
          · exact absurd hred (by simp)
          · by_cases hleaf : childNode.isLeaf
            · rw [if_pos hleaf] at hred
              simp at hred
              obtain ⟨h1, h2⟩ := hred
              constructor
              · intro hr; rw [← h1] at hr; exact absurd hr (by simp)
              · intro hr; rw [← h1] at hr; exact absurd hr (by simp)
            · rw [if_neg hleaf] at hred
              exact hpersist s hred rfl
        · by_cases hleaf : childNode.isLeaf
          · rw [if_pos hleaf] at hred
            simp at hred
            obtain ⟨h1, h2⟩ := hred
            constructor
            · intro hr; rw [← h1] at hr; exact absurd hr (by simp)
            · intro hr; rw [← h1] at hr; exact absurd hr (by simp)
          · rw [if_neg hleaf] at hred
            exact hpersist s hred rfl
    · rw [if_neg hcol] at h
      exact hpersist s h rfl

theorem foldRanges_preserve
    (f : Store → NodeKey → Option Node → List Entry →
      Option (OpResponse × Store))
    (version : Nat) (k : NodeKey) (batch2 : List Entry) (s : Store)
    (node2 before : Node)
    (hstore : storeOld version s)
    (hkwf : k.nibble_path.WF)
    (hch : node2.children = before.children)
    (hbv : ∀ c ∈ before.children, c.version < version)
    (hbpw : before.children.Pairwise fun a b => a.index < b.index)
    (hbatch : ∀ e ∈ batch2, k.nibble_path.strictExt e.1 ∧ e.1.WF)
    (hsorted : batch2.Pairwise fun a b => a.1.cmp b.1 = Ordering.lt)
    (hf : ∀ st ck sub resp s1, applyHyps version st ck sub →
      f st ck none sub = some (resp, s1) →
      (resp = OpResponse.unchanged → s1 = st) ∧
      (st.loadNode ck = none → resp = OpResponse.deleted → s1 = st)) :
    ∀ ranges node uc scur,
      (∀ r ∈ ranges, r.start ≤ r.last ∧ r.last < batch2.length ∧
        ∀ p, r.start ≤ p → p ≤ r.last →
          rangeNibble batch2 k.depth p = some r.nibble) →
      ranges.Pairwise (fun a b => a.nibble < b.nibble) →
      ((node = node2 ∧ uc = [] ∧ scur = s) ∨
        (∃ nib, childrenGet node.children nib ≠ childrenGet before.children nib ∧
          ∀ r ∈ ranges, nib < r.nibble)) →
      ∀ node3 uc3 s3,
        foldRanges f version k batch2 ranges node uc scur =
          some (node3, uc3, s3) →
        node3.children = before.children → uc3 = [] ∧ s3 = s := by
  intro ranges
  induction ranges with
  | nil =>
    intro node uc scur _ _ hinv node3 uc3 s3 hfold hcheq
    have h2 : (some (node, uc, scur) : Option (Node × List (Nat × Node) × Store)) =
        some (node3, uc3, s3) := hfold
    simp at h2
    obtain ⟨e1, e2, e3⟩ := h2
    rcases hinv with ⟨_, ha2, ha3⟩ | ⟨nib, hdiff, _⟩
    · exact ⟨e2 ▸ ha2, e3 ▸ ha3⟩
    · exfalso
      apply hdiff
      rw [e1, hcheq]
  | cons r rest ihr =>
    intro node uc scur hprops hpw hinv node3 uc3 s3 hfold hcheq
    have hr0 := hprops r (List.mem_cons_self r rest)
    have hrestprops : ∀ r2 ∈ rest, r2.start ≤ r2.last ∧ r2.last < batch2.length ∧
        ∀ p, r2.start ≤ p → p ≤ r2.last →
          rangeNibble batch2 k.depth p = some r2.nibble :=
      fun r2 hr2 => hprops r2 (List.mem_cons_of_mem r hr2)
    have hpwh := List.pairwise_cons.1 hpw
    have hrn16 : r.nibble < 16 := by
      have hnib := hr0.2.2 r.start (le_refl _) hr0.1
      obtain ⟨e, he, hgn⟩ := (rangeNibble_some _ _ _ _).1 hnib
      obtain ⟨_, hna⟩ := (getNibble_some _ _ _).1 hgn
      exact hna ▸ nibbleAt_lt_sixteen e.1 k.depth
    set cv := (match childrenGet node.children r.nibble with
      | some c => c.version
      | none => version) with hcv
    have hstep : (match sliceIncl batch2 r.start r.last with
        | none => none
        | some sub =>
          match f scur (k.child cv r.nibble) (assocGet uc r.nibble) sub with
          | none => none
          | some (resp, s1) =>
            match resp with
            | OpResponse.updated childNode =>
              foldRanges f version k batch2 rest
                { node with children := (childrenInsert node.children
                    ⟨r.nibble, version, childNode.hash⟩) }
                (assocPut (assocDrop uc r.nibble) r.nibble childNode)
                (if cv < version then
                  s1.insertOrphan version (k.child cv r.nibble) else s1)
            | OpResponse.deleted =>
              foldRanges f version k batch2 rest
                { node with children := childrenRemove node.children r.nibble }
                (assocDrop uc r.nibble)
                (if cv < version then
                  s1.insertOrphan version (k.child cv r.nibble) else s1)
            | OpResponse.unchanged =>
              foldRanges f version k batch2 rest node (assocDrop uc r.nibble) s1)
        = some (node3, uc3, s3) := hfold
    clear hfold
    rcases hslice : sliceIncl batch2 r.start r.last with _ | sub <;>
      simp only [hslice] at hstep
    · exact absurd hstep (by simp)
    rcases hsub : f scur (k.child cv r.nibble) (assocGet uc r.nibble) sub
        with _ | ⟨resp, s1⟩ <;> simp only [hsub] at hstep
    · exact absurd hstep (by simp)
    have hsubfacts : ∀ e ∈ sub,
        (k.nibble_path.push r.nibble).ext e.1 ∧ e.1.WF := by
      intro e he
      obtain ⟨p, hp1, hp2, hpe⟩ :=
        sliceIncl_mem_pos batch2 r.start r.last sub hslice e he
      have hplen : p < batch2.length := (List.getElem?_eq_some_iff.1 hpe).1
      have hmem : e ∈ batch2 :=
        (List.getElem?_eq_some_iff.1 hpe).2 ▸ List.getElem_mem hplen
      obtain ⟨hse, hwe⟩ := hbatch e hmem
      have hnib := hr0.2.2 p hp1 hp2
      obtain ⟨e2, he2, hgn⟩ := (rangeNibble_some _ _ _ _).1 hnib
      have hee : e2 = e := by
        rw [hpe] at he2
        simpa using he2.symm
      subst hee
      obtain ⟨hlt2, hna⟩ := (getNibble_some _ _ _).1 hgn
      exact ⟨ext_push_intro k.nibble_path e2.1 hkwf hwe r.nibble
        hse.1 hse.2 hna, hwe⟩
    have hsubsorted : sub.Pairwise fun a b => a.1.cmp b.1 = Ordering.lt :=
      List.Pairwise.sublist (sliceIncl_sublist batch2 r.start r.last sub hslice)
        hsorted
    have hckwf : (k.child cv r.nibble).nibble_path.WF := by
      show (k.nibble_path.child r.nibble).WF
      unfold NibblePath.child
      exact push_WF _ _ hkwf hrn16
    have hhyps : applyHyps version s (k.child cv r.nibble) sub :=
      ⟨hstore, hckwf, fun e he => (hsubfacts e he), hsubsorted⟩
    rcases hinv with ⟨hA1, hA2, hA3⟩ | ⟨nib, hdiff, hlt⟩
    · subst hA1
      subst hA2
      rw [hA3] at hsub
      have hcached : assocGet ([] : List (Nat × Node)) r.nibble = none := rfl
      rw [hcached] at hsub
      cases resp with
      | unchanged =>
        have hs1 : s1 = s :=
          (hf s (k.child cv r.nibble) sub .unchanged s1 hhyps hsub).1 rfl
        have hnext : foldRanges f version k batch2 rest node
            (assocDrop [] r.nibble) s1 = some (node3, uc3, s3) := hstep
        rw [hs1] at hnext
        exact ihr node (assocDrop [] r.nibble) s hrestprops hpwh.2
          (Or.inl ⟨rfl, rfl, rfl⟩) node3 uc3 s3 hnext hcheq
      | updated childNode =>
        have hnext : foldRanges f version k batch2 rest
            { node with children := (childrenInsert node.children
                ⟨r.nibble, version, childNode.hash⟩) }
            (assocPut (assocDrop [] r.nibble) r.nibble childNode)
            (if cv < version then
              s1.insertOrphan version (k.child cv r.nibble) else s1)
            = some (node3, uc3, s3) := hstep
        have hdiff2 : childrenGet (childrenInsert node.children
            ⟨r.nibble, version, childNode.hash⟩) r.nibble ≠
            childrenGet before.children r.nibble := by
          have hself := children_get_insert_self node.children
            ⟨r.nibble, version, childNode.hash⟩
          rw [hself]
          rcases hbg : childrenGet before.children r.nibble with _ | c
          · simp
          · obtain ⟨hcm, _⟩ := children_get_mem before.children r.nibble c hbg
            have hcver := hbv c hcm
            intro hEq
            rw [Option.some_inj] at hEq
            rw [← hEq] at hcver
            exact absurd hcver (lt_irrefl version)
        exact ihr _ _ _ hrestprops hpwh.2
          (Or.inr ⟨r.nibble, hdiff2, hpwh.1⟩) node3 uc3 s3 hnext hcheq
      | deleted =>
        have hnext : foldRanges f version k batch2 rest
            { node with children := childrenRemove node.children r.nibble }
            (assocDrop [] r.nibble)
            (if cv < version then
              s1.insertOrphan version (k.child cv r.nibble) else s1)
            = some (node3, uc3, s3) := hstep
        rcases hcg : childrenGet node.children r.nibble with _ | c
        · have hcv2 : cv = version := by
            rw [hcv]
            simp only [hcg]
          have hload : s.loadNode (k.child cv r.nibble) = none := by
            rw [hcv2]
            exact loadNode_fresh s version (fun e he => (hstore e he).1)
              (k.nibble_path.child r.nibble)
          have hs1 : s1 = s :=
            (hf s (k.child cv r.nibble) sub .deleted s1 hhyps hsub).2 hload rfl
          have hrm : childrenRemove node.children r.nibble = node.children :=
            children_remove_absent _ _ hcg
          have hnodeq : ({ node with
              children := childrenRemove node.children r.nibble } : Node) = node := by
            rw [hrm]
          have hs2 : (if cv < version then
              s1.insertOrphan version (k.child cv r.nibble) else s1) = s := by
            rw [hcv2, if_neg (lt_irrefl version), hs1]
          rw [hnodeq, hs2] at hnext
          exact ihr node (assocDrop [] r.nibble) s hrestprops hpwh.2
            (Or.inl ⟨rfl, rfl, rfl⟩) node3 uc3 s3 hnext hcheq
        · have hbg : childrenGet before.children r.nibble = some c := by
            rw [← hch]
            exact hcg
          have hnpw : node.children.Pairwise fun a b => a.index < b.index := by
            rw [hch]
            exact hbpw
          have hdiff2 : childrenGet (childrenRemove node.children r.nibble)
              r.nibble ≠ childrenGet before.children r.nibble := by
            rw [children_get_remove_self node.children r.nibble hnpw, hbg]
            simp
          exact ihr _ _ _ hrestprops hpwh.2
            (Or.inr ⟨r.nibble, hdiff2, hpwh.1⟩) node3 uc3 s3 hnext hcheq
    · have hlt_rest : ∀ r2 ∈ rest, nib < r2.nibble :=
        fun r2 hr2 => hlt r2 (List.mem_cons_of_mem r hr2)
      have hne : nib ≠ r.nibble :=
        Nat.ne_of_lt (hlt r (List.mem_cons_self r rest))
      cases resp with
      | unchanged =>
        have hnext : foldRanges f version k batch2 rest node
            (assocDrop uc r.nibble) s1 = some (node3, uc3, s3) := hstep
        exact ihr _ _ _ hrestprops hpwh.2
          (Or.inr ⟨nib, hdiff, hlt_rest⟩) node3 uc3 s3 hnext hcheq
      | updated childNode =>
        have hnext : foldRanges f version k batch2 rest
            { node with children := (childrenInsert node.children
                ⟨r.nibble, version, childNode.hash⟩) }
            (assocPut (assocDrop uc r.nibble) r.nibble childNode)
            (if cv < version then
              s1.insertOrphan version (k.child cv r.nibble) else s1)
            = some (node3, uc3, s3) := hstep
        have hdiff2 : childrenGet (childrenInsert node.children
            ⟨r.nibble, version, childNode.hash⟩) nib ≠
            childrenGet before.children nib := by
          rw [children_get_insert_ne node.children _ nib hne]
          exact hdiff
        exact ihr _ _ _ hrestprops hpwh.2
          (Or.inr ⟨nib, hdiff2, hlt_rest⟩) node3 uc3 s3 hnext hcheq
      | deleted =>
        have hnext : foldRanges f version k batch2 rest
            { node with children := childrenRemove node.children r.nibble }
            (assocDrop uc r.nibble)
            (if cv < version then
              s1.insertOrphan version (k.child cv r.nibble) else s1)
            = some (node3, uc3, s3) := hstep
        have hdiff2 : childrenGet (childrenRemove node.children r.nibble) nib ≠
            childrenGet before.children nib := by
          rw [children_get_remove_ne node.children nib r.nibble hne]
          exact hdiff
        exact ihr _ _ _ hrestprops hpwh.2
          (Or.inr ⟨nib, hdiff2, hlt_rest⟩) node3 uc3 s3 hnext hcheq

theorem tail_strict (k : NibblePath) (hk : k.WF) (e0 : Entry)
    (btail : List Entry)
    (hbatch : ∀ e ∈ e0 :: btail, k.ext e.1 ∧ e.1.WF)
    (hsorted : (e0 :: btail).Pairwise fun a b => a.1.cmp b.1 = Ordering.lt)
    (hhit : e0.1 = k) :
    ∀ e ∈ btail, k.strictExt e.1 ∧ e.1.WF := by
  intro e he
  obtain ⟨hext, hwf⟩ := hbatch e (List.mem_cons_of_mem e0 he)
  have hcmp : e0.1.cmp e.1 = Ordering.lt := (List.pairwise_cons.1 hsorted).1 e he
  have hne : e.1 ≠ k := by
    intro hEq
    rw [hhit, hEq] at hcmp
    rw [(cmp_eq_iff k k).2 rfl] at hcmp
    exact absurd hcmp (by simp)
  exact ⟨strictExt_of_ext_ne k e.1 hk hwf hext (fun _ => hne.symm), hwf⟩

theorem nohit_strict (k : NibblePath) (hk : k.WF) (e0 : Entry)
    (btail : List Entry)
    (hbatch : ∀ e ∈ e0 :: btail, k.ext e.1 ∧ e.1.WF)
    (hsorted : (e0 :: btail).Pairwise fun a b => a.1.cmp b.1 = Ordering.lt)
    (hhit : ¬ e0.1 = k) :
    ∀ e ∈ e0 :: btail, k.strictExt e.1 ∧ e.1.WF := by
  intro e he
  obtain ⟨hext, hwf⟩ := hbatch e he
  refine ⟨strictExt_of_ext_ne k e.1 hk hwf hext (fun _ hEq => ?_), hwf⟩
  obtain ⟨i, hi, hie⟩ := List.mem_iff_getElem.1 he
  have hi0 : i = 0 := by
    refine first_of_sorted_ext (e0 :: btail) k hk hsorted
      (fun e2 he2 => ⟨(hbatch e2 he2).2, (hbatch e2 he2).1⟩) i hi ?_
    rw [hie]
    exact hEq.symm
  subst hi0
  apply hhit
  have he0 : e0 = e := by simpa using hie
  rw [he0, ← hEq]

theorem batch2_facts (k : NibblePath) (batch1 : List Entry) (d : Entry)
    (h1 : ∀ e ∈ batch1, k.strictExt e.1 ∧ e.1.WF)
    (hs1 : batch1.Pairwise fun a b => a.1.cmp b.1 = Ordering.lt)
    (hd : k.strictExt d.1 ∧ d.1.WF) :
    (∀ e ∈ insertBatchEntry batch1 d, k.strictExt e.1 ∧ e.1.WF) ∧
    (insertBatchEntry batch1 d).Pairwise
      (fun a b => a.1.cmp b.1 = Ordering.lt) := by
  constructor
  · intro e he
    rcases insertBatchEntry_mem batch1 d e he with h | h
    · exact h1 e h
    · rw [h]
      exact hd
  · exact insertBatchEntry_sorted batch1 d hs1

theorem applyCore (fuel version : Nat) (s : Store) (k : NodeKey)
    (node0 node2 : Node) (batch2 : List Entry) (resp : OpResponse) (s1 : Store)
    (hstore : storeOld version s)
    (hkwf : k.nibble_path.WF)
    (hn2ch : node2.children = node0.children)
    (hbv : ∀ c ∈ node0.children, c.version < version)
    (hbpw : node0.children.Pairwise fun a b => a.index < b.index)
    (hb2 : ∀ e ∈ batch2, k.nibble_path.strictExt e.1 ∧ e.1.WF)
    (hb2s : batch2.Pairwise fun a b => a.1.cmp b.1 = Ordering.lt)
    (ih : ∀ s2 k2 b2 r2 s3, applyHyps version s2 k2 b2 →
      applyAt fuel s2 version k2 none b2 = some (r2, s3) →
      (r2 = OpResponse.unchanged → s3 = s2) ∧
      (s2.loadNode k2 = none → r2 = OpResponse.deleted → s3 = s2))
    (happ : (match (match batch2, node2.isEmpty with
        | [e], true => some (node2.applyOp e, ([] : List (Nat × Node)), s)
        | _, _ =>
          match nibbleRanges batch2 k.depth with
          | none => none
          | some ranges =>
            foldRanges (fun st ck cn sub => applyAt fuel st version ck cn sub)
              version k batch2 ranges node2 [] s) with
      | none => none
      | some (node3, uc, s3) => finalizeApply s3 version k node0 node3 uc)
      = some (resp, s1)) :
    (resp = OpResponse.unchanged → s1 = s) ∧
    (node0.children = [] → resp = OpResponse.deleted → s1 = s) := by
  have hdisp : ∀ node3 uc s3,
      (match nibbleRanges batch2 k.depth with
        | none => none
        | some ranges =>
          foldRanges (fun st ck cn sub => applyAt fuel st version ck cn sub)
            version k batch2 ranges node2 [] s) = some (node3, uc, s3) →
      node3.children = node0.children → uc = [] ∧ s3 = s := by
    intro node3 uc s3 hmatch hc3
    rcases hr : nibbleRanges batch2 k.depth with _ | ranges <;>
      simp only [hr] at hmatch
    · exact absurd hmatch (by simp)
    · have hr2 : nibbleRangesGo batch2 k.depth (batch2.length + 1) 0 =
          some ranges := hr
      have hmono : nibMono batch2 k.depth :=
        nibMono_of_sorted k.nibble_path hkwf batch2 hb2 hb2s
      have hnsome : nibSome batch2 k.depth :=
        nibSome_of_strict k.nibble_path batch2 hb2
      obtain ⟨hrp, hrpw⟩ := rangesGo_ok batch2 k.depth hmono hnsome
        (batch2.length + 1) 0 ranges hr2
      exact foldRanges_preserve
        (fun st ck cn sub => applyAt fuel st version ck cn sub)
        version k batch2 s node2 node0 hstore hkwf hn2ch hbv hbpw hb2 hb2s
        (fun st ck sub r2 s4 hh hap => ih st ck sub r2 s4 hh hap)
        ranges node2 [] s
        (fun r hrr => ⟨(hrp r hrr).2.1, (hrp r hrr).2.2.1, (hrp r hrr).2.2.2⟩)
        hrpw (Or.inl ⟨rfl, rfl, rfl⟩) node3 uc s3 hmatch hc3
  have hao : ∀ node3 uc s3,
      (match batch2, node2.isEmpty with
        | [e], true => some (node2.applyOp e, ([] : List (Nat × Node)), s)
        | _, _ =>
          match nibbleRanges batch2 k.depth with
          | none => none
          | some ranges =>
            foldRanges (fun st ck cn sub => applyAt fuel st version ck cn sub)
              version k batch2 ranges node2 [] s) = some (node3, uc, s3) →
      node3.children = node0.children → uc = [] ∧ s3 = s := by
    intro node3 uc s3 hmatch hc3
    rcases hb2shape : batch2 with _ | ⟨ea, _ | ⟨eb, brest⟩⟩
    · subst hb2shape
      exact hdisp node3 uc s3 hmatch hc3
    · subst hb2shape
      rcases hemp : node2.isEmpty with _ | _
      · rw [hemp] at hmatch
        exact hdisp node3 uc s3 hmatch hc3
      · rw [hemp] at hmatch
        have hm2 : some (node2.applyOp ea, ([] : List (Nat × Node)), s) =
            some (node3, uc, s3) := hmatch
        simp at hm2
        exact ⟨hm2.2.1, hm2.2.2.symm⟩
    · subst hb2shape
      exact hdisp node3 uc s3 hmatch hc3
  rcases hao0 : (match batch2, node2.isEmpty with
      | [e], true => some (node2.applyOp e, ([] : List (Nat × Node)), s)
      | _, _ =>
        match nibbleRanges batch2 k.depth with
        | none => none
        | some ranges =>
          foldRanges (fun st ck cn sub => applyAt fuel st version ck cn sub)
            version k batch2 ranges node2 [] s)
      with _ | ⟨node3, uc, s3⟩ <;> simp only [hao0] at happ
  · exact absurd happ (by simp)
  · obtain ⟨hfin1, hfin2⟩ := finalize_cases s3 version k node0 node3 uc resp s1 happ
    constructor
    · intro hr
      obtain ⟨hnb, hs1⟩ := hfin1 hr
      have hc3 : node3.children = node0.children := by rw [hnb]
      obtain ⟨huc, hs3⟩ := hao node3 uc s3 hao0 hc3
      rw [hs1, huc, hs3]
      rfl
    · intro hch0 hr
      obtain ⟨hemp3, hs1⟩ := hfin2 hr
      have hc3 : node3.children = node0.children := by
        have hie2 := hemp3
        unfold Node.isEmpty at hie2
        rw [Bool.and_eq_true] at hie2
        rw [List.isEmpty_iff.1 hie2.1, hch0]
      obtain ⟨_, hs3⟩ := hao node3 uc s3 hao0 hc3
      rw [hs1, hs3]

theorem applyStage (fuel version : Nat) (s : Store) (k : NodeKey)
    (node0 node1 : Node) (dang : Option Record)
    (e0 : Entry) (btail : List Entry) (resp : OpResponse) (s1 : Store)
    (hstore : storeOld version s) (hkwf : k.nibble_path.WF)
    (hn1ch : node1.children = node0.children)
    (hbv : ∀ c ∈ node0.children, c.version < version)
    (hbpw : node0.children.Pairwise fun a b => a.index < b.index)
    (hbatch : ∀ e ∈ e0 :: btail, k.nibble_path.ext e.1 ∧ e.1.WF)
    (hsorted : (e0 :: btail).Pairwise fun a b => a.1.cmp b.1 = Ordering.lt)
    (hdang : ∀ r, dang = some r →
      k.nibble_path.strictExt (NibblePath.fromKey r.key) ∧
        (NibblePath.fromKey r.key).WF)
    (ih : ∀ s2 k2 b2 r2 s3, applyHyps version s2 k2 b2 →
      applyAt fuel s2 version k2 none b2 = some (r2, s3) →
      (r2 = OpResponse.unchanged → s3 = s2) ∧
      (s2.loadNode k2 = none → r2 = OpResponse.deleted → s3 = s2))
    (happ : (let nb : Node × List Entry :=
        if e0.1 = k.nibble_path then (node1.applyOp e0, btail)
        else (node1, e0 :: btail)
      let batch2 : List Entry := match dang with
        | some data => insertBatchEntry nb.2
            (NibblePath.fromKey data.key, data.key, Op.insert data.value)
        | none => nb.2
      match (match batch2, nb.1.isEmpty with
        | [e], true => some (nb.1.applyOp e, ([] : List (Nat × Node)), s)
        | _, _ =>
          match nibbleRanges batch2 k.depth with
          | none => none
          | some ranges =>
            foldRanges (fun st ck cn sub => applyAt fuel st version ck cn sub)
              version k batch2 ranges nb.1 [] s) with
      | none => none
      | some (node3, uc, s3) => finalizeApply s3 version k node0 node3 uc)
      = some (resp, s1)) :
    (resp = OpResponse.unchanged → s1 = s) ∧
    (node0.children = [] → resp = OpResponse.deleted → s1 = s) := by
  by_cases hhit : e0.1 = k.nibble_path
  · rw [if_pos hhit] at happ
    have hb1 : ∀ e ∈ btail, k.nibble_path.strictExt e.1 ∧ e.1.WF :=
      tail_strict k.nibble_path hkwf e0 btail hbatch hsorted hhit
    have hs1 : btail.Pairwise fun a b => a.1.cmp b.1 = Ordering.lt :=
      (List.pairwise_cons.1 hsorted).2
    have hch2 : (node1.applyOp e0).children = node0.children :=
      (applyOp_children node1 e0).trans hn1ch
    cases dang with
    | none =>
      exact applyCore fuel version s k node0 (node1.applyOp e0) btail resp s1
        hstore hkwf hch2 hbv hbpw hb1 hs1 ih happ
    | some rec =>
      obtain ⟨hext, hwf⟩ := hdang rec rfl
      obtain ⟨hb2, hb2s⟩ := batch2_facts k.nibble_path btail
        (NibblePath.fromKey rec.key, rec.key, Op.insert rec.value)
        hb1 hs1 ⟨hext, hwf⟩
      exact applyCore fuel version s k node0 (node1.applyOp e0)
        (insertBatchEntry btail
          (NibblePath.fromKey rec.key, rec.key, Op.insert rec.value))
        resp s1 hstore hkwf hch2 hbv hbpw hb2 hb2s ih happ
  · rw [if_neg hhit] at happ
    have hb1 : ∀ e ∈ e0 :: btail, k.nibble_path.strictExt e.1 ∧ e.1.WF :=
      nohit_strict k.nibble_path hkwf e0 btail hbatch hsorted hhit
    cases dang with
    | none =>
      exact applyCore fuel version s k node0 node1 (e0 :: btail) resp s1
        hstore hkwf hn1ch hbv hbpw hb1 hsorted ih happ
    | some rec =>
      obtain ⟨hext, hwf⟩ := hdang rec rfl
      obtain ⟨hb2, hb2s⟩ := batch2_facts k.nibble_path (e0 :: btail)
        (NibblePath.fromKey rec.key, rec.key, Op.insert rec.value)
        hb1 hsorted ⟨hext, hwf⟩
      exact applyCore fuel version s k node0 node1
        (insertBatchEntry (e0 :: btail)
          (NibblePath.fromKey rec.key, rec.key, Op.insert rec.value))
        resp s1 hstore hkwf hn1ch hbv hbpw hb2 hb2s ih happ

theorem applyAt_preserve :
    ∀ (fuel version : Nat) (s : Store) (k : NodeKey) (batch : List Entry)
      (resp : OpResponse) (s1 : Store),
      applyHyps version s k batch →
      applyAt fuel s version k none batch = some (resp, s1) →
      (resp = OpResponse.unchanged → s1 = s) ∧
      (s.loadNode k = none → resp = OpResponse.deleted → s1 = s) := by
  intro fuel
  induction fuel with
  | zero =>
    intro version s k batch resp s1 _ happ
    exact absurd happ (by simp [applyAt])
  | succ fuel ih =>
    intro version s k batch resp s1 hhyps happ
    obtain ⟨hstore, hkwf, hbatch, hsorted⟩ := hhyps
    cases batch with
    | nil =>
      have hnone : (none : Option (OpResponse × Store)) = some (resp, s1) := happ
      exact absurd hnone (by simp)
    | cons e0 btail =>
      have happ2 : (let node0 := (s.loadNode k).getD Node.new
          let nd : Node × Option Record := match node0.data with
            | some data =>
              if NibblePath.fromKey data.key ≠ k.nibble_path then
                ({ node0 with data := none }, some data)
              else (node0, none)
            | none => (node0, none)
          let nb : Node × List Entry :=
            if e0.1 = k.nibble_path then (nd.1.applyOp e0, btail)
            else (nd.1, e0 :: btail)
          let batch2 : List Entry := match nd.2 with
            | some data =>
              insertBatchEntry nb.2
                (NibblePath.fromKey data.key, data.key, Op.insert data.value)
            | none => nb.2
          match (match batch2, nb.1.isEmpty with
            | [e], true => some (nb.1.applyOp e, ([] : List (Nat × Node)), s)
            | _, _ =>
              match nibbleRanges batch2 k.depth with
              | none => none
              | some ranges =>
                foldRanges
                  (fun st ck cn sub => applyAt fuel st version ck cn sub)
                  version k batch2 ranges nb.1 [] s) with
          | none => none
          | some (node3, uc, s3) => finalizeApply s3 version k node0 node3 uc)
          = some (resp, s1) := happ
      clear happ
      rcases hload : s.loadNode k with _ | loaded <;> rw [hload] at happ2
      · refine ⟨?_, ?_⟩ <;>
          [skip;
           intro _]
        all_goals
          have hstage := applyStage fuel version s k Node.new Node.new none
            e0 btail resp s1 hstore hkwf rfl
            (by intro c hc; exact absurd hc (List.not_mem_nil c))
            List.Pairwise.nil hbatch hsorted
            (fun r hr => absurd hr (by simp))
            (fun s2 k2 b2 r2 s3 => ih version s2 k2 b2 r2 s3) happ2
        · exact hstage.1
        · exact fun hdel => hstage.2 rfl hdel
      · have hentry := hstore (k, loaded) (loadNode_mem s k loaded hload)
        have hbv : ∀ c ∈ loaded.children, c.version < version := hentry.2.1
        have hbpw : loaded.children.Pairwise fun a b => a.index < b.index :=
          hentry.2.2.1
        have hdataf : ∀ r, loaded.data = some r →
            k.nibble_path.ext (NibblePath.fromKey r.key) ∧
              (NibblePath.fromKey r.key).WF := hentry.2.2.2
        have hvac : (some loaded : Option Node) = none →
            resp = OpResponse.deleted → s1 = s := by
          intro hln
          exact absurd hln (by simp)
        have happ2b : (let nd : Node × Option Record := match loaded.data with
              | some data =>
                if NibblePath.fromKey data.key ≠ k.nibble_path then
                  ({ loaded with data := none }, some data)
                else (loaded, none)
              | none => (loaded, none)
            let nb : Node × List Entry :=
              if e0.1 = k.nibble_path then (nd.1.applyOp e0, btail)
              else (nd.1, e0 :: btail)
            let batch2 : List Entry := match nd.2 with
              | some data =>
                insertBatchEntry nb.2
                  (NibblePath.fromKey data.key, data.key, Op.insert data.value)
              | none => nb.2
            match (match batch2, nb.1.isEmpty with
              | [e], true => some (nb.1.applyOp e, ([] : List (Nat × Node)), s)
              | _, _ =>
                match nibbleRanges batch2 k.depth with
                | none => none
                | some ranges =>
                  foldRanges
                    (fun st ck cn sub => applyAt fuel st version ck cn sub)
                    version k batch2 ranges nb.1 [] s) with
            | none => none
            | some (node3, uc, s3) => finalizeApply s3 version k loaded node3 uc)
            = some (resp, s1) := happ2
        clear happ2
        rcases hd : loaded.data with _ | rec <;> rw [hd] at happ2b
        · have hstage := applyStage fuel version s k loaded loaded none
            e0 btail resp s1 hstore hkwf rfl hbv hbpw hbatch hsorted
            (fun r hr => absurd hr (by simp))
            (fun s2 k2 b2 r2 s3 => ih version s2 k2 b2 r2 s3) happ2b
          exact ⟨hstage.1, hvac⟩
        · have happ2c : (let nd : Node × Option Record :=
              if NibblePath.fromKey rec.key ≠ k.nibble_path then
                ({ loaded with data := none }, some rec)
              else (loaded, none)
              let nb : Node × List Entry :=
                if e0.1 = k.nibble_path then (nd.1.applyOp e0, btail)
                else (nd.1, e0 :: btail)
              let batch2 : List Entry := match nd.2 with
                | some data =>
                  insertBatchEntry nb.2
                    (NibblePath.fromKey data.key, data.key, Op.insert data.value)
                | none => nb.2
              match (match batch2, nb.1.isEmpty with
                | [e], true =>
                  some (nb.1.applyOp e, ([] : List (Nat × Node)), s)
                | _, _ =>
                  match nibbleRanges batch2 k.depth with
                  | none => none
                  | some ranges =>
                    foldRanges
                      (fun st ck cn sub => applyAt fuel st version ck cn sub)
                      version k batch2 ranges nb.1 [] s) with
              | none => none
              | some (node3, uc, s3) => finalizeApply s3 version k loaded node3 uc)
              = some (resp, s1) := happ2b
          clear happ2b
          by_cases hne : NibblePath.fromKey rec.key ≠ k.nibble_path
          · rw [if_pos hne] at happ2c
            have hdrec := hdataf rec hd
            have hstrict : k.nibble_path.strictExt (NibblePath.fromKey rec.key) :=
              strictExt_of_ext_ne k.nibble_path (NibblePath.fromKey rec.key)
                hkwf hdrec.2 hdrec.1 (fun _ => fun hEq => hne hEq.symm)
            have hstage := applyStage fuel version s k loaded
              { loaded with data := none } (some rec)
              e0 btail resp s1 hstore hkwf rfl hbv hbpw hbatch hsorted
              (fun r hr => by
                rw [← Option.some_inj.1 hr]
                exact ⟨hstrict, hdrec.2⟩)
              (fun s2 k2 b2 r2 s3 => ih version s2 k2 b2 r2 s3) happ2c
            exact ⟨hstage.1, hvac⟩
          · rw [if_neg hne] at happ2c
            have hstage := applyStage fuel version s k loaded loaded none
              e0 btail resp s1 hstore hkwf rfl hbv hbpw hbatch hsorted
              (fun r hr => absurd hr (by simp))
              (fun s2 k2 b2 r2 s3 => ih version s2 k2 b2 r2 s3) happ2c
            exact ⟨hstage.1, hvac⟩

theorem fromKey_cmp_lt (a b : List Nat) (h : bytesCmp a b = Ordering.lt) :
    (NibblePath.fromKey a).cmp (NibblePath.fromKey b) = Ordering.lt := by
  unfold NibblePath.cmp NibblePath.fromKey
  rw [show (⟨a.length * 2, a⟩ : NibblePath).bytes = a from rfl,
    show (⟨b.length * 2, b⟩ : NibblePath).bytes = b from rfl, h]

theorem insertOrphan_version (st : Store) (v : Nat) (kk : NodeKey) :
    (st.insertOrphan v kk).version = st.version := by
  unfold Store.insertOrphan
  split <;> rfl

/-! ## C3: version atomicity of `apply` -/

/-- C3 counterexample: a batch that only deletes an absent key, applied to
the empty tree, reports Deleted and advances the version counter from 0 to 1
(the version item is written) even though the node store and the orphan store
are untouched and the tree's content is unchanged — a successful apply that
advances the counter without a structural change, contradicting the claim's
final clause and the spec's invariant I7. -/
theorem c3_counterexample :
    treeApply 2 emptyStore [([97], Op.delete)] =
      some ⟨some 1, [], []⟩ ∧
    emptyStore = ⟨none, [], []⟩ := by
  exact ⟨by decide, rfl⟩

/-- C3 (amended): under the store invariants (every stored node predates the
committed version, with index-sorted children) and for a sorted batch of
byte-string keys, `apply` is version-atomic in the response-conditioned
sense: when the recursive application reports the root Unchanged, `apply`
returns the store entirely unchanged (version counter, node store and orphan
store); when it reports Updated or Deleted, the result's version counter is
exactly `old_version + 1` — never more. (The claim's further clause that the
counter is never advanced without a structural change is false: see the
counterexample.) -/
theorem c3_amended (fuel : Nat) (s : Store) (batch : List (List Nat × Op))
    (resp : OpResponse) (s1 : Store)
    (hwf : StoreWF s) (hcs : storeChildrenSorted s)
    (hsk : keysSorted batch) (hkw : keysWF batch)
    (happ : applyAt fuel s (s.version.getD 0 + 1)
      (NodeKey.root (s.version.getD 0)) none
      (batch.map fun e => (NibblePath.fromKey e.1, e.1, e.2)) =
      some (resp, s1)) :
    (resp = OpResponse.unchanged → treeApply fuel s batch = some s) ∧
    (resp ≠ OpResponse.unchanged → ∃ s2,
      treeApply fuel s batch = some s2 ∧
      s2.version = some (s.version.getD 0 + 1)) := by
  have hhyps : applyHyps (s.version.getD 0 + 1) s
      (NodeKey.root (s.version.getD 0))
      (batch.map fun e => (NibblePath.fromKey e.1, e.1, e.2)) := by
    refine ⟨?_, empty_WF, ?_, ?_⟩
    · intro e he
      refine ⟨by have := (hwf e he).1; omega,
        fun c hc => by have := (hwf e he).2.2.1 c hc; omega,
        hcs e he, ?_⟩
      intro r hr
      have hm := (hwf e he).2.2.2
      rw [hr] at hm
      exact hm
    · intro e he
      obtain ⟨x, hx, hxe⟩ := List.mem_map.1 he
      rw [← hxe]
      exact ⟨empty_ext _, fromKey_WF x.1 (hkw x hx)⟩
    · exact List.Pairwise.map _ (fun a b hab => fromKey_cmp_lt a.1 b.1 hab) hsk
  have hshow : treeApply fuel s batch =
      (match applyAt fuel s (s.version.getD 0 + 1)
          (NodeKey.root (s.version.getD 0)) none
          (batch.map fun e => (NibblePath.fromKey e.1, e.1, e.2)) with
        | none => none
        | some (resp, s1) =>
          match resp with
          | OpResponse.updated u =>
            some (if s.version.getD 0 > 0 then
              (((s1.setVersion (s.version.getD 0 + 1)).saveNode
                ⟨s.version.getD 0 + 1, NibblePath.empty⟩ u).insertOrphan
                (s.version.getD 0 + 1) (NodeKey.root (s.version.getD 0)))
              else ((s1.setVersion (s.version.getD 0 + 1)).saveNode
                ⟨s.version.getD 0 + 1, NibblePath.empty⟩ u))
          | OpResponse.deleted =>
            some (if s.version.getD 0 > 0 then
              ((s1.setVersion (s.version.getD 0 + 1)).insertOrphan
                (s.version.getD 0 + 1) (NodeKey.root (s.version.getD 0)))
              else (s1.setVersion (s.version.getD 0 + 1)))
          | OpResponse.unchanged => some s1) := rfl
  constructor
  · intro hr
    subst hr
    have hs1 : s1 = s :=
      (applyAt_preserve fuel (s.version.getD 0 + 1) s
        (NodeKey.root (s.version.getD 0))
        (batch.map fun e => (NibblePath.fromKey e.1, e.1, e.2))
        OpResponse.unchanged s1 hhyps happ).1 rfl
    rw [hshow, happ, hs1]
  · intro hr
    cases resp with
    | unchanged => exact absurd rfl hr
    | updated u =>
      refine ⟨_, by rw [hshow, happ], ?_⟩
      by_cases h0 : s.version.getD 0 > 0
      · rw [if_pos h0, insertOrphan_version]
        rfl
      · rw [if_neg h0]
        rfl
    | deleted =>
      refine ⟨_, by rw [hshow, happ], ?_⟩
      by_cases h0 : s.version.getD 0 > 0
      · rw [if_pos h0, insertOrphan_version]
        rfl
      · rw [if_neg h0]
        rfl

/-- Witness for C3's amended theorem: inserting one key into the empty tree
reports Updated, and the committed store's version is exactly 1. -/
theorem c3_witness :
    ∃ s2, treeApply 2 emptyStore [([97], Op.insert [5])] = some s2 ∧
      s2.version = some 1 :=
  (c3_amended 2 emptyStore [([97], Op.insert [5])]
    (OpResponse.updated ⟨[], some ⟨[97], [5]⟩⟩) emptyStore
    (by decide) (by decide) (by decide) (by decide) (by decide)).2
    (by decide)
